import Mathlib

/-!
Verification of the sGDML dataset-generation core: the Q-Chem report parser
(`sgdml_dataset_generation/readers/qchem.py`), the per-geometry calculator
wrapper (`calculators.py`, `scripts/forces_trajectory.py`) and the
dispatch/aggregation pipeline.  Python text handling, dictionaries and the
report state machine are embedded shallowly: a report is a `List String` of
lines, dictionaries are insertion-ordered association lists, numeric tokens
are parsed into `ℚ`, and Python exceptions are an explicit `Except` error.
-/

namespace SGDML

/-! ### Python string primitives -/

/-- Characters of `s` grouped into maximal non-whitespace runs, as strings:
the behaviour of Python's `str.split()` with no argument. -/
def splitWsAux : List Char → List Char → List String
  | [], [] => []
  | [], acc => [⟨acc.reverse⟩]
  | c :: cs, acc =>
    if c.isWhitespace then
      match acc with
      | [] => splitWsAux cs []
      | _ => (⟨acc.reverse⟩ : String) :: splitWsAux cs []
    else splitWsAux cs (c :: acc)

/-- Python `line.split()`: split on runs of whitespace, dropping empty pieces. -/
def pysplit (s : String) : List String := splitWsAux s.toList []

/-- `pat` occurs as a contiguous substring of `s`: Python's `pat in s`. -/
def hasSub (pat s : String) : Bool :=
  s.toList.tails.any (fun t => pat.toList.isPrefixOf t)

/-- Value of a run of decimal digits; `none` if empty or a non-digit occurs. -/
def readDigits : List Char → Option ℕ
  | [] => none
  | cs =>
    if cs.all Char.isDigit then
      some (cs.foldl (fun n c => 10 * n + (c.toNat - 48)) 0)
    else none

/-- Digits after the decimal point as a fraction in `[0,1)`; empty list is `0`. -/
def readFrac (cs : List Char) : Option ℚ :=
  if cs.all Char.isDigit then
    some ((cs.foldl (fun n c => 10 * n + (c.toNat - 48)) 0 : ℚ) / (10 : ℚ) ^ cs.length)
  else none

/-- Unsigned decimal literal, optionally with a fractional part
(`"12"`, `"12.5"`, `"12."`, `".5"`). -/
def pyfloatCore (cs : List Char) : Option ℚ :=
  match cs.splitOn '.' with
  | [ip] => (readDigits ip).map (fun n => (n : ℚ))
  | [ip, fp] =>
    if ip = [] ∧ fp = [] then none
    else if ip.all Char.isDigit ∧ fp.all Char.isDigit then
      (readFrac fp).map (fun q => (ip.foldl (fun n c => 10 * n + (c.toNat - 48)) 0 : ℚ) + q)
    else none
  | _ => none

/-- Python `float(tok)` on the plain decimal literals occurring in Q-Chem
reports (optional sign, digits, optional fractional part); `none` models the
`ValueError` raised on any other token. -/
def pyfloat (s : String) : Option ℚ :=
  match s.toList with
  | '-' :: rest => (pyfloatCore rest).map Neg.neg
  | '+' :: rest => pyfloatCore rest
  | cs => pyfloatCore cs

/-- Python `int(tok)`: optional sign followed by decimal digits; `none` models
the `ValueError` raised on any other token. -/
def pyint (s : String) : Option ℤ :=
  match s.toList with
  | '-' :: rest => (readDigits rest).map (fun n => -(n : ℤ))
  | '+' :: rest => (readDigits rest).map (fun n => (n : ℤ))
  | cs => (readDigits cs).map (fun n => (n : ℤ))

/-- Python `tok.replace(":", "")`: delete every colon. -/
def stripColons (s : String) : String := ⟨s.toList.filter (fun c => c ≠ ':')⟩

/-- Python `list(map(float, toks))`: convert left to right, aborting with a
`ValueError` (here `none`) at the first bad token. -/
def mapFloats : List String → Option (List ℚ)
  | [] => some []
  | t :: ts =>
    match pyfloat t with
    | none => none
    | some v => (mapFloats ts).map (fun vs => v :: vs)

/-- Python `list(map(lambda p: int(p)-1, toks))` (the subtraction kept as in
the source; the values are never used). -/
def mapInts : List String → Option (List ℤ)
  | [] => some []
  | t :: ts =>
    match pyint t with
    | none => none
    | some v => (mapInts ts).map (fun vs => (v - 1) :: vs)

/-! ### Python dictionaries as insertion-ordered association lists -/

/-- A Python `dict`: keys in insertion order, no duplicate keys by
construction of `dinsert`. -/
abbrev Dict (κ α : Type) := List (κ × α)

/-- Python `d[k]` as an option (`none` models `KeyError`). -/
def dlookup [DecidableEq κ] (k : κ) : Dict κ α → Option α
  | [] => none
  | (k', v) :: rest => if k' = k then some v else dlookup k rest

/-- Python `d[k] = v`: overwrite in place if the key exists, else append. -/
def dinsert [DecidableEq κ] (k : κ) (v : α) : Dict κ α → Dict κ α
  | [] => [(k, v)]
  | (k', v') :: rest => if k' = k then (k, v) :: rest else (k', v') :: dinsert k v rest

/-! ### Conversion constants

The repository imports `sgdml_dataset_generation.units`, whose source is not
in the repository snapshot. -/

/-- Modelled from the spec: `units.bohr_to_angs`, the fixed length-conversion
constant (Bohr radius in Angstrom) used to normalize geometries to atomic
units; the `units` module itself is missing from the snapshot. -/
def bohr_to_angs : ℚ := 52917721067 / 100000000000

/-- Modelled from the spec: `units.hartree_to_ev`, the fixed eV-per-Hartree
energy-conversion constant; the `units` module itself is missing from the
snapshot. -/
def hartree_to_ev : ℚ := 272113860217 / 10000000000

/-! ### The parser state: `QChemOutputFile.data`

Python exceptions escaping `QChemOutputFile.__init__` are modelled by an
`Except PyErr` result; `.eof` marks a section loop reaching end-of-file,
where the Python `while True: line = f.readline()` loops would spin forever
on empty strings. -/

inductive PyErr : Type
  /-- Python `KeyError` (a `self[...]` access on an absent key). -/
  | keyError : PyErr
  /-- Python `IndexError` (a `parts[i]` access past the end). -/
  | indexError : PyErr
  /-- Python `ValueError` (a failed `float(...)` or `int(...)`). -/
  | valueError : PyErr
  /-- Python `NameError` (reading the local `state` before any assignment). -/
  | nameError : PyErr
  /-- Python `FileNotFoundError` (opening a report file that was never produced). -/
  | ioError : PyErr
  /-- End-of-file inside a section loop (the Python loop never terminates). -/
  | eof : PyErr
deriving DecidableEq, Repr

/-- The fields of `QChemOutputFile.data` plus the handler-shared Python local
`state` (`stateVar`).  `ok`, `gradients (au)` and
`derivative couplings (au)` are created up front in `__init__`; every other
key is absent (`none`) until its section handler first stores it. -/
structure QCState where
  ok : Bool := false
  symbols : Option (List String) := none
  geometry : Option (List (List ℚ)) := none
  scfEnergy : Option ℚ := none
  excEnergies : Option (Dict ℤ ℚ) := none
  oscStrengths : Option (Dict ℤ ℚ) := none
  energies : Option (Dict ℤ ℚ) := none
  gradients : Dict ℤ (List (List ℚ)) := []
  couplings : Dict (ℤ × ℤ) (List (List ℚ)) := []
  stateVar : Option ℤ := none
deriving DecidableEq, Repr

/-- The parser state as `__init__` sets it up before the line loop. -/
def initQC : QCState := {}

/-- `self._getset(key, default)`: keep the stored value when the key is
already present, otherwise store the default — first write wins. -/
def getset (cur : Option α) (dflt : α) : α := cur.getD dflt

/-- `np.array(rows).transpose()` on the rectangular component-major matrices
built by the gradient handlers, returned as a list of rows. -/
def npTranspose (rows : List (List ℚ)) : List (List ℚ) :=
  match rows with
  | [] => []
  | r0 :: _ => (List.range r0.length).map (fun i => rows.map (fun r => r.getD i 0))

/-! ### Section readers

One function per `while True:` loop of `QChemOutputFile.__init__`.  Each
consumes lines from the front of the remaining input and returns the rest. -/

/-- Rows of the `Standard Nuclear Orientation (Angstroms)` block: per line,
`parts[1]` is the symbol and `parts[2:5]` the position, until a `-----`
separator. -/
def geomRows : List String → Except PyErr ((List String × List (List ℚ)) × List String)
  | [] => .error .eof
  | line :: rest =>
    if hasSub "-----" line then .ok (([], []), rest)
    else
      let parts := pysplit line
      match parts[1]? with
      | none => .error .indexError
      | some sym =>
        match mapFloats ((parts.drop 2).take 3) with
        | none => .error .valueError
        | some pos =>
          match geomRows rest with
          | .error e => .error e
          | .ok ((syms, geo), rest') => .ok ((sym :: syms, pos :: geo), rest')

/-- Rows of the `TDDFT Excitation Energies` block: `Excited state k:` lines
store `float(parts[7])` under `int(parts[2].replace(":",""))` and update the
shared local `state`; `Strength` lines store `float(parts[2])` under the
current `state`; a `-----` separator ends the block. -/
def tddftRows (exc osc : Dict ℤ ℚ) (sv : Option ℤ) :
    List String → Except PyErr ((Dict ℤ ℚ × Dict ℤ ℚ × Option ℤ) × List String)
  | [] => .error .eof
  | line :: rest =>
    let parts := pysplit line
    if hasSub "-----" line then .ok ((exc, osc, sv), rest)
    else if hasSub "Excited state" line then
      match parts[2]? with
      | none => .error .indexError
      | some t2 =>
        match pyint (stripColons t2) with
        | none => .error .valueError
        | some state =>
          match parts[7]? with
          | none => .error .indexError
          | some t7 =>
            match pyfloat t7 with
            | none => .error .valueError
            | some en => tddftRows (dinsert state en exc) osc (some state) rest
    else if hasSub "Strength" line then
      match parts[2]? with
      | none => .error .indexError
      | some t2 =>
        match pyfloat t2 with
        | none => .error .valueError
        | some v =>
          match sv with
          | none => .error .nameError
          | some state => tddftRows exc (dinsert state v osc) sv rest
    else tddftRows exc osc sv rest

/-- The derivative-coupling handler's first loop: skip forward until a line
contains both `DC between` and `with ETF`. -/
def dcSkip : List String → Except PyErr (List String)
  | [] => .error .eof
  | line :: rest =>
    if hasSub "DC between" line && hasSub "with ETF" line then .ok rest
    else dcSkip rest

/-- Rows of a derivative-coupling vector: per line `parts[1:4]` as floats,
until a `-----` separator. -/
def nacvRows : List String → Except PyErr (List (List ℚ) × List String)
  | [] => .error .eof
  | line :: rest =>
    if hasSub "-----" line then .ok ([], rest)
    else
      match mapFloats (((pysplit line).drop 1).take 3) with
      | none => .error .valueError
      | some v =>
        match nacvRows rest with
        | .error e => .error e
        | .ok (vs, rest') => .ok (v :: vs, rest')

/-- One component row of a gradient chunk: `parts[1:]` as floats. -/
def gradRow : List String → Except PyErr (List ℚ × List String)
  | [] => .error .eof
  | line :: rest =>
    match mapFloats ((pysplit line).drop 1) with
    | none => .error .valueError
    | some r => .ok (r, rest)

theorem gradRow_length {ls : List String} {r : List ℚ} {rest' : List String}
    (h : gradRow ls = .ok (r, rest')) : rest'.length < ls.length := by
  cases ls with
  | nil => simp [gradRow] at h
  | cons line rest =>
    simp only [gradRow] at h
    cases hm : mapFloats ((pysplit line).drop 1) with
    | none => rw [hm] at h; exact absurd h (by simp)
    | some v =>
      rw [hm] at h
      simp only [Except.ok.injEq, Prod.mk.injEq] at h
      simp [← h.2]

/-- The chunked gradient loop shared by `Gradient of SCF Energy`
(`stop = "Max gradient"`) and `Gradient of the state energy`
(`stop = "Gradient time"`): read an atom-index header row (whose `int`
conversions may raise but whose values are unused), then three component
rows, transpose the 3×w chunk to atom-major order, and continue until the
stop marker. -/
def gradChunks (stop : String) : List String → Except PyErr (List (List ℚ) × List String)
  | [] => .error .eof
  | line :: rest =>
    if hasSub stop line then .ok ([], rest)
    else
      match mapInts (pysplit line) with
      | none => .error .valueError
      | some _ =>
        match h0 : gradRow rest with
        | .error e => .error e
        | .ok (r0, rest0) =>
          match h1 : gradRow rest0 with
          | .error e => .error e
          | .ok (r1, rest1) =>
            match h2 : gradRow rest1 with
            | .error e => .error e
            | .ok (r2, rest2) =>
              match gradChunks stop rest2 with
              | .error e => .error e
              | .ok (chunks, rest') => .ok (npTranspose [r0, r1, r2] ++ chunks, rest')
termination_by ls => ls.length
decreasing_by
  have l0 := gradRow_length h0
  have l1 := gradRow_length h1
  have l2 := gradRow_length h2
  simp only [List.length_cons]
  omega

end SGDML
namespace SGDML

theorem geomRows_suffix {ls : List String} {a : List String × List (List ℚ)} {r : List String}
    (h : geomRows ls = .ok (a, r)) : r <:+ ls := by
  induction ls generalizing a r with
  | nil => simp [geomRows] at h
  | cons line rest ih =>
    simp only [geomRows] at h
    split at h
    · cases h
      exact List.suffix_cons line rest
    · split at h
      · exact absurd h (by simp)
      · split at h
        · exact absurd h (by simp)
        · split at h
          · exact absurd h (by simp)
          · rename_i heq
            cases h
            exact (ih heq).trans (List.suffix_cons line rest)

end SGDML
namespace SGDML

theorem tddftRows_suffix {exc osc : Dict ℤ ℚ} {sv : Option ℤ} {ls : List String}
    {a : Dict ℤ ℚ × Dict ℤ ℚ × Option ℤ} {r : List String}
    (h : tddftRows exc osc sv ls = .ok (a, r)) : r <:+ ls := by
  induction ls generalizing exc osc sv a r with
  | nil => simp [tddftRows] at h
  | cons line rest ih =>
    simp only [tddftRows] at h
    split at h
    · cases h
      exact List.suffix_cons line rest
    · split at h
      · split at h
        · exact absurd h (by simp)
        · split at h
          · exact absurd h (by simp)
          · split at h
            · exact absurd h (by simp)
            · split at h
              · exact absurd h (by simp)
              · exact (ih h).trans (List.suffix_cons line rest)
      · split at h
        · split at h
          · exact absurd h (by simp)
          · split at h
            · exact absurd h (by simp)
            · split at h
              · exact absurd h (by simp)
              · exact (ih h).trans (List.suffix_cons line rest)
        · exact (ih h).trans (List.suffix_cons line rest)

theorem dcSkip_suffix {ls r : List String} (h : dcSkip ls = .ok r) : r <:+ ls := by
  induction ls generalizing r with
  | nil => simp [dcSkip] at h
  | cons line rest ih =>
    simp only [dcSkip] at h
    split at h
    · cases h
      exact List.suffix_cons line rest
    · exact (ih h).trans (List.suffix_cons line rest)

theorem nacvRows_suffix {ls : List String} {a : List (List ℚ)} {r : List String}
    (h : nacvRows ls = .ok (a, r)) : r <:+ ls := by
  induction ls generalizing a r with
  | nil => simp [nacvRows] at h
  | cons line rest ih =>
    simp only [nacvRows] at h
    split at h
    · cases h
      exact List.suffix_cons line rest
    · split at h
      · exact absurd h (by simp)
      · split at h
        · exact absurd h (by simp)
        · rename_i heq
          cases h
          exact (ih heq).trans (List.suffix_cons line rest)

theorem gradRow_suffix {ls : List String} {a : List ℚ} {r : List String}
    (h : gradRow ls = .ok (a, r)) : r <:+ ls := by
  cases ls with
  | nil => simp [gradRow] at h
  | cons line rest =>
    simp only [gradRow] at h
    split at h
    · exact absurd h (by simp)
    · cases h
      exact List.suffix_cons line _

theorem gradChunks_suffix_aux {stop : String} : ∀ (n : ℕ) {ls : List String}
    {a : List (List ℚ)} {r : List String}, ls.length ≤ n →
    gradChunks stop ls = .ok (a, r) → r <:+ ls := by
  intro n
  induction n with
  | zero =>
    intro ls a r hle h
    cases ls with
    | nil => simp [gradChunks] at h
    | cons line rest => simp at hle
  | succ n ih =>
    intro ls a r hle h
    cases ls with
    | nil => simp [gradChunks] at h
    | cons line rest =>
      simp only [gradChunks] at h
      split at h
      · cases h
        exact List.suffix_cons line _
      · split at h
        · exact absurd h (by simp)
        · split at h
          · exact absurd h (by simp)
          · rename_i r0 rest0 h0
            split at h
            · exact absurd h (by simp)
            · rename_i r1 rest1 h1
              split at h
              · exact absurd h (by simp)
              · rename_i r2 rest2 h2
                split at h
                · exact absurd h (by simp)
                · rename_i chunks rest2' hrec
                  cases h
                  have s0 := gradRow_suffix h0
                  have s1 := gradRow_suffix h1
                  have s2 := gradRow_suffix h2
                  have hlen : rest2.length ≤ n := by
                    have l0 := s0.length_le
                    have l1 := s1.length_le
                    have l2 := s2.length_le
                    simp only [List.length_cons] at hle
                    omega
                  have s3 := ih hlen hrec
                  exact (((s3.trans s2).trans s1).trans s0).trans (List.suffix_cons line rest)

theorem gradChunks_suffix {stop : String} {ls : List String} {a : List (List ℚ)}
    {r : List String} (h : gradChunks stop ls = .ok (a, r)) : r <:+ ls :=
  gradChunks_suffix_aux ls.length le_rfl h

/-! ### The driver loop of `QChemOutputFile.__init__` -/

/-- The `energies[state] = energies[0] + en_ex / units.hartree_to_ev` loop
over `self['excitation energies (eV)'].items()`; `energies[0]` is looked up
afresh on every iteration, as in the source. -/
def addExc : Dict ℤ ℚ → Dict ℤ ℚ → Except PyErr (Dict ℤ ℚ)
  | ens, [] => .ok ens
  | ens, (state, en) :: rest =>
    match dlookup 0 ens with
    | none => .error .keyError
    | some e0 => addExc (dinsert state (e0 + en / hartree_to_ev) ens) rest

/-- The `for line in f:` dispatch loop of `QChemOutputFile.__init__`: test
the marker substrings in the order of the `elif` chain, run the matching
section handler on the following lines, and continue scanning after it. -/
def qparse : List String → QCState → Except PyErr QCState
  | [], st => .ok st
  | line :: rest, st =>
    if hasSub "Standard Nuclear Orientation (Angstroms)" line then
      match hg : geomRows (rest.drop 3) with
      | .error e => .error e
      | .ok ((symbols, geometry), rest') =>
        qparse rest'
          { st with
            symbols := some (getset st.symbols symbols),
            geometry := some (getset st.geometry
              (geometry.map (fun row => row.map (fun x => x / bohr_to_angs)))) }
    else if hasSub "Total energy in final basis set" line then
      match (pysplit line)[8]? with
      | none => .error .indexError
      | some t =>
        match pyfloat t with
        | none => .error .valueError
        | some v => qparse rest { st with scfEnergy := some (getset st.scfEnergy v) }
    else if hasSub "TDDFT Excitation Energies" line then
      match ht : tddftRows (getset st.excEnergies []) (getset st.oscStrengths [])
          st.stateVar (rest.drop 2) with
      | .error e => .error e
      | .ok ((exc, osc, sv), rest') =>
        match st.scfEnergy with
        | none => .error .keyError
        | some e0 =>
          match addExc (dinsert 0 e0 (getset st.energies [])) exc with
          | .error e => .error e
          | .ok ens =>
            qparse rest'
              { st with
                excEnergies := some exc, oscStrengths := some osc, stateVar := sv,
                energies := some ens }
    else if hasSub "between states " line then
      match ((pysplit line)[2]?).bind pyint with
      | none => .error .indexError
      | some iState =>
        match ((pysplit line)[4]?).bind pyint with
        | none => .error .indexError
        | some jState =>
          match hd : dcSkip rest with
          | .error e => .error e
          | .ok rest1 =>
            match hn : nacvRows (rest1.drop 2) with
            | .error e => .error e
            | .ok (nacv, rest') =>
              qparse rest'
                { st with couplings := dinsert (iState, jState) nacv st.couplings }
    else if hasSub "Gradient of SCF Energy" line then
      match hc : gradChunks "Max gradient" rest with
      | .error e => .error e
      | .ok (grad, rest') =>
        qparse rest' { st with gradients := dinsert 0 grad st.gradients }
    else if hasSub "RPA" line && hasSub "State Energy is" line then
      match ((pysplit line)[1]?).bind pyint with
      | none => .error .indexError
      | some s => qparse rest { st with stateVar := some s }
    else if hasSub "Gradient of the state energy" line then
      match hc : gradChunks "Gradient time" rest with
      | .error e => .error e
      | .ok (grad, rest') =>
        match st.stateVar with
        | none => .error .nameError
        | some s => qparse rest' { st with gradients := dinsert s grad st.gradients }
    else if hasSub "Thank you very much for using Q-Chem." line then
      qparse rest { st with ok := true }
    else qparse rest st
termination_by ls _ => ls.length
decreasing_by
  · have := (geomRows_suffix hg).length_le
    have : (rest.drop 3).length = rest.length - 3 := List.length_drop 3 rest
    simp only [List.length_cons]
    omega
  · simp
  · have := (tddftRows_suffix ht).length_le
    have : (rest.drop 2).length = rest.length - 2 := List.length_drop 2 rest
    simp only [List.length_cons]
    omega
  · have h1 := (dcSkip_suffix hd).length_le
    have h2 := (nacvRows_suffix hn).length_le
    have h3 : (rest1.drop 2).length = rest1.length - 2 := List.length_drop 2 rest1
    simp only [List.length_cons]
    omega
  · have := (gradChunks_suffix hc).length_le
    simp only [List.length_cons]
    omega
  · simp
  · have := (gradChunks_suffix hc).length_le
    simp only [List.length_cons]
    omega
  · simp
  · simp

/-- `QChemOutputFile(f)`: parse a whole report, starting from the initial
`data` dictionary. -/
def qchemParse (lines : List String) : Except PyErr QCState :=
  qparse lines initQC

/-! ### The calculator wrapper (`calculators.py` / `run_calculator_map`)

The external engine invocation is abstracted by its outcome: the shell exit
status of `run_qchem.sh` and the content of the report file it may or may
not have produced. -/

/-- What the external `run_qchem.sh` call left behind for one geometry. -/
structure EngineOutcome where
  exitStatus : ℤ
  report : Option (List String)

/-- `run_qchem` (`calculators.py`): on non-zero exit status, print the
log-file content and the diagnostic message but continue; then `open` the
report file (`FileNotFoundError` when the engine produced none) and parse it
with `QChemOutputFile`.  The second component is the diagnostic text printed
to the console. -/
def run_qchem (outcome : EngineOutcome) : Except PyErr QCState × List String :=
  let log :=
    if outcome.exitStatus ≠ 0 then
      ["Return status nonzero, error in QChem calculation, see error messages above !"]
    else []
  match outcome.report with
  | none => (.error .ioError, log)
  | some lines => (qchemParse lines, log)

/-- Result of one `run_calculator_map` call: the returned (or raised) value,
and whether `shutil.rmtree(directory)` was reached. -/
structure CalcOutcome where
  result : Except PyErr QCState
  scratchRemoved : Bool
deriving Repr

/-- `run_calculator_map` (`forces_trajectory.py`): make the scratch
directory, call `run_calculator`, then `shutil.rmtree` the scratch directory
and return.  There is no `try/finally`: an exception raised inside
`run_calculator` propagates before the `rmtree` line runs. -/
def run_calculator_map (outcome : EngineOutcome) : CalcOutcome :=
  match (run_qchem outcome).1 with
  | .error e => ⟨.error e, false⟩
  | .ok res => ⟨.ok res, true⟩

/-- The result stream as the parent process consumes it, in submission
order: a worker's exception re-raises at the consuming `for` loop and aborts
the run there, so results after the first failing geometry are never seen. -/
def consumeResults : List CalcOutcome → Except PyErr (List QCState)
  | [] => .ok []
  | c :: rest =>
    match c.result with
    | .error e => .error e
    | .ok r => (consumeResults rest).map (fun rs => r :: rs)

/-! ### The result aggregator (`forces_trajectory.py` main loop) -/

/-- Output-file key: `forces_<I>.xyz` for a gradient of state `I`, or
`nacvec_<I>-<J>.xyz` for the coupling of the ordered pair `(I, J)`. -/
inductive OutKey : Type
  | forces (state : ℤ)
  | nacvec (state1 state2 : ℤ)
deriving DecidableEq, Repr

/-- One frame as written by `ase.io.extxyz.write_extxyz` with columns
symbols, positions, momenta, and the `Energy` info field. -/
structure Frame where
  symbols : List String
  positions : List (List ℚ)
  energy : ℚ
  momenta : List (List ℚ)
deriving DecidableEq, Repr

/-- The output files: frames of each output stream, in file order.  A file
absent from disk is the empty list. -/
def FS : Type := OutKey → List Frame

/-- `write_extxyz(name, [mol], ..., append=append)`: truncate/create the
file when `append` is false, append (creating if missing) when true. -/
def writeFrame (fs : FS) (k : OutKey) (fr : Frame) (append : Bool) : FS :=
  fun k' => if k' = k then (if append then fs k ++ [fr] else [fr]) else fs k'

/-- `-gradient`: forces are stored as momenta with the sign flipped. -/
def negMat (g : List (List ℚ)) : List (List ℚ) := g.map (fun row => row.map Neg.neg)

/-- The `for state,gradient in results["gradients (au)"].items()` loop: look
up `results["energies (au)"][state]`, store the negated gradient as momenta,
and write one frame to `forces_<state>.xyz`.  Returns the file system and
the final value of the loop variable `state` (`sv`). -/
def writeGradients (symbols : List String) (positions : List (List ℚ))
    (energiesOpt : Option (Dict ℤ ℚ)) (append : Bool) :
    FS → Option ℤ → Dict ℤ (List (List ℚ)) → Except PyErr (FS × Option ℤ)
  | fs, sv, [] => .ok (fs, sv)
  | fs, _, (state, gradient) :: rest =>
    match energiesOpt with
    | none => .error .keyError
    | some ens =>
      match dlookup state ens with
      | none => .error .keyError
      | some en =>
        writeGradients symbols positions energiesOpt append
          (writeFrame fs (.forces state) ⟨symbols, positions, en, negMat gradient⟩ append)
          (some state) rest

/-- The `for (state1,state2),nac_vector in results["derivative couplings
(au)"].items()` loop: the `Energy` field is
`results["energies (au)"][state]`, with `state` left over from the gradient
loop (a `NameError` if it was never bound); the coupling vector itself is
stored as momenta (not negated), one frame per pair to
`nacvec_<state1>-<state2>.xyz`. -/
def writeCouplings (symbols : List String) (positions : List (List ℚ))
    (energiesOpt : Option (Dict ℤ ℚ)) (append : Bool) :
    FS → Option ℤ → Dict (ℤ × ℤ) (List (List ℚ)) → Except PyErr FS
  | fs, _, [] => .ok fs
  | fs, sv, ((state1, state2), nac) :: rest =>
    match energiesOpt with
    | none => .error .keyError
    | some ens =>
      match sv with
      | none => .error .nameError
      | some state =>
        match dlookup state ens with
        | none => .error .keyError
        | some en =>
          writeCouplings symbols positions energiesOpt append
            (writeFrame fs (.nacvec state1 state2) ⟨symbols, positions, en, nac⟩ append)
            sv rest

/-- The body of `for igeom,results in enumerate(results_list)`: build the
molecule from `results["symbols"]` and `results["geometry (au)"]` (a
`KeyError` when a section never appeared), then write the gradient and
coupling frames.  `sv` is the Python variable `state`, which persists across
geometries because the loop runs at module scope. -/
def aggregateOne (res : QCState) (append : Bool) (fs : FS) (sv : Option ℤ) :
    Except PyErr (FS × Option ℤ) :=
  match res.symbols with
  | none => .error .keyError
  | some symbols =>
    match res.geometry with
    | none => .error .keyError
    | some positions =>
      match writeGradients symbols positions res.energies append fs sv res.gradients with
      | .error e => .error e
      | .ok (fs1, sv1) =>
        match writeCouplings symbols positions res.energies append fs1 sv1 res.couplings with
        | .error e => .error e
        | .ok fs2 => .ok (fs2, sv1)

/-- The aggregation loop from a given file system, `state` variable and
`append` flag: `append` is set to true after each geometry, so only the
first geometry's writes truncate. -/
def aggregateFrom (fs : FS) (sv : Option ℤ) (append : Bool) :
    List QCState → Except PyErr FS
  | [] => .ok fs
  | res :: rest =>
    match aggregateOne res append fs sv with
    | .error e => .error e
    | .ok (fs', sv') => aggregateFrom fs' sv' true rest

/-- The whole aggregation phase of `forces_trajectory.py`: results arrive in
submission order, `append` starts out false, `state` starts out unbound. -/
def aggregate (fs : FS) (results : List QCState) : Except PyErr FS :=
  aggregateFrom fs none false results

/-! ### The worker pool (`pool.imap`)

`forces_trajectory.py` dispatches geometries with
`multiprocessing.Pool.imap`, whose implementation is library code outside
the repository.  Following the spec (§4.3, §9), its ordering behaviour is
modelled as a machine that tags each task with its submission index and
buffers out-of-order completions until their turn. -/

/-- Python `del d[k]`: remove the entry for `k`. -/
def derase [DecidableEq κ] (k : κ) : Dict κ α → Dict κ α
  | [] => []
  | (k', v) :: rest => if k' = k then rest else (k', v) :: derase k rest

theorem derase_length_lt [DecidableEq κ] {k : κ} {d : Dict κ α} {v : α}
    (h : dlookup k d = some v) : (derase k d).length < d.length := by
  induction d with
  | nil => simp [dlookup] at h
  | cons e rest ih =>
    obtain ⟨k', v'⟩ := e
    simp only [dlookup] at h
    simp only [derase]
    by_cases hk : k' = k
    · simp [hk]
    · rw [if_neg hk] at h
      simp only [if_neg hk, List.length_cons]
      exact Nat.succ_lt_succ (ih h)

/-- Modelled from the spec: the state of the ordered result channel of
`Pool.imap` — completed-but-undelivered results keyed by submission index,
the index of the next result to deliver, and the results already delivered
to the consumer. -/
structure PoolSt (β : Type) where
  buffer : Dict ℕ β
  next : ℕ
  emitted : List β

/-- Modelled from the spec: deliver every buffered result whose turn has
come, in consecutive submission-index order. -/
def flushLoop (buf : Dict ℕ β) (next : ℕ) (emitted : List β) :
    Dict ℕ β × ℕ × List β :=
  match h : dlookup next buf with
  | none => (buf, next, emitted)
  | some v => flushLoop (derase next buf) (next + 1) (emitted ++ [v])
termination_by buf.length
decreasing_by exact derase_length_lt h

/-- Modelled from the spec: one completion event — buffer the completed
`(index, result)` pair, then deliver what has become deliverable. -/
def poolStep (st : PoolSt β) (iv : ℕ × β) : PoolSt β :=
  let (buf, nxt, em) := flushLoop (dinsert iv.1 iv.2 st.buffer) st.next st.emitted
  ⟨buf, nxt, em⟩

/-- Modelled from the spec: run the ordered result channel over a sequence
of completion events (submission indices in completion order). -/
def imapEmit (results : ℕ → β) (order : List ℕ) : PoolSt β :=
  order.foldl (fun st i => poolStep st (i, results i)) ⟨[], 0, []⟩

/-- Modelled from the spec: `pool.imap(run_calculator_map, ...)` as observed
by the consumer — the delivered result sequence when the jobs for `gs`
complete in the order `order` and each job computes `f`. -/
def imapModel [Inhabited β] (f : α → β) (gs : List α) (order : List ℕ) : List β :=
  (imapEmit (fun i => ((gs.map f).getD i default)) order).emitted

end SGDML
namespace SGDML

/-- `line` is a well-formed geometry row carrying symbol `sym` and the three
coordinate tokens parsing to `pos`. -/
def GeomRow (line : String) (sym : String) (pos : List ℚ) : Prop :=
  hasSub "-----" line = false ∧
  (pysplit line)[1]? = some sym ∧
  mapFloats (((pysplit line).drop 2).take 3) = some pos

/-- `geomRows` on well-formed rows followed by a separator returns exactly
the carried symbols and positions, consuming through the separator. -/
theorem geomRows_gen : ∀ {rows : List String} {data : List (String × List ℚ)},
    List.Forall₂ (fun l d => GeomRow l d.1 d.2) rows data →
    ∀ {sep : String}, hasSub "-----" sep = true → ∀ (rst : List String),
    geomRows (rows ++ sep :: rst) = .ok ((data.map Prod.fst, data.map Prod.snd), rst) := by
  intro rows data hrows
  induction hrows with
  | nil =>
    intro sep hsep rst
    simp [geomRows, hsep]
  | cons h _ ih =>
    intro sep hsep rst
    obtain ⟨h1, h2, h3⟩ := h
    simp [geomRows, h1, h2, h3, ih hsep rst]

end SGDML
namespace SGDML

/-- `line` triggers no branch of the `elif` chain of `__init__`. -/
def InertLine (line : String) : Prop :=
  hasSub "Standard Nuclear Orientation (Angstroms)" line = false ∧
  hasSub "Total energy in final basis set" line = false ∧
  hasSub "TDDFT Excitation Energies" line = false ∧
  hasSub "between states " line = false ∧
  hasSub "Gradient of SCF Energy" line = false ∧
  (hasSub "RPA" line && hasSub "State Energy is" line) = false ∧
  hasSub "Gradient of the state energy" line = false ∧
  hasSub "Thank you very much for using Q-Chem." line = false

theorem qparse_nil (st : QCState) : qparse [] st = .ok st := by
  rw [qparse.eq_1]

theorem qparse_inert {line : String} (h : InertLine line) (rest : List String)
    (st : QCState) : qparse (line :: rest) st = qparse rest st := by
  obtain ⟨h1, h2, h3, h4, h5, h6, h7, h8⟩ := h
  rw [qparse.eq_2]
  simp [h1, h2, h3, h4, h5, h6, h7, h8]

theorem qparse_geom_step {title : String}
    (htitle : hasSub "Standard Nuclear Orientation (Angstroms)" title = true)
    (hd1 hd2 hd3 : String) {rows : List String} {data : List (String × List ℚ)}
    (hrows : List.Forall₂ (fun l d => GeomRow l d.1 d.2) rows data)
    {sep : String} (hsep : hasSub "-----" sep = true) (rst : List String) (st : QCState) :
    qparse (title :: hd1 :: hd2 :: hd3 :: (rows ++ sep :: rst)) st =
      qparse rst
        { st with
          symbols := some (getset st.symbols (data.map Prod.fst)),
          geometry := some (getset st.geometry
            ((data.map Prod.snd).map (fun row => row.map (fun x => x / bohr_to_angs)))) } := by
  rw [qparse.eq_2, if_pos htitle]
  have hg : geomRows (List.drop 3 (hd1 :: hd2 :: hd3 :: (rows ++ sep :: rst))) =
      .ok ((data.map Prod.fst, data.map Prod.snd), rst) := by
    simpa using geomRows_gen hrows hsep rst
  split
  · rename_i e heq
    rw [hg] at heq
    simp at heq
  · rename_i symbols geometry rest' heq
    rw [hg] at heq
    injection heq with heq
    injection heq with heq1 heq2
    injection heq1 with hs hg2
    subst hs
    subst hg2
    subst heq2
    rfl

/-- `line` is a `Total energy in final basis set` line whose 9th token
parses to `v`, and does not accidentally contain an earlier marker. -/
def ScfLine (line : String) (v : ℚ) : Prop :=
  hasSub "Standard Nuclear Orientation (Angstroms)" line = false ∧
  hasSub "Total energy in final basis set" line = true ∧
  ((pysplit line)[8]?).bind pyfloat = some v

theorem qparse_scf_step {line : String} {v : ℚ} (h : ScfLine line v)
    (rest : List String) (st : QCState) :
    qparse (line :: rest) st =
      qparse rest { st with scfEnergy := some (getset st.scfEnergy v) } := by
  obtain ⟨h1, h2, h3⟩ := h
  rw [qparse.eq_2, if_neg (by simp [h1]), if_pos h2]
  cases ht : (pysplit line)[8]? with
  | none => rw [ht] at h3; simp at h3
  | some t =>
    rw [ht] at h3
    simp only [Option.some_bind] at h3
    simp [ht, h3]

/-- `line` is the literal success-marker line (and no earlier marker). -/
def OkLine (line : String) : Prop :=
  hasSub "Standard Nuclear Orientation (Angstroms)" line = false ∧
  hasSub "Total energy in final basis set" line = false ∧
  hasSub "TDDFT Excitation Energies" line = false ∧
  hasSub "between states " line = false ∧
  hasSub "Gradient of SCF Energy" line = false ∧
  (hasSub "RPA" line && hasSub "State Energy is" line) = false ∧
  hasSub "Gradient of the state energy" line = false ∧
  hasSub "Thank you very much for using Q-Chem." line = true

theorem qparse_ok_step {line : String} (h : OkLine line) (rest : List String)
    (st : QCState) : qparse (line :: rest) st = qparse rest { st with ok := true } := by
  obtain ⟨h1, h2, h3, h4, h5, h6, h7, h8⟩ := h
  rw [qparse.eq_2]
  simp [h1, h2, h3, h4, h5, h6, h7, h8]

end SGDML

namespace SGDML

/-- `line` is an `Excited state k:` line carrying excitation energy `en`. -/
def ExcLine (line : String) (k : ℤ) (en : ℚ) : Prop :=
  hasSub "-----" line = false ∧
  hasSub "Excited state" line = true ∧
  ((pysplit line)[2]?).bind (fun t => pyint (stripColons t)) = some k ∧
  ((pysplit line)[7]?).bind pyfloat = some en

/-- `tddftRows` over a block of well-formed `Excited state` lines followed
by a separator: the pairs are inserted in order, the oscillator strengths
are untouched, and `state` ends on the last listed index. -/
theorem tddftRows_gen : ∀ {rows : List String} {data : List (ℤ × ℚ)},
    List.Forall₂ (fun l d => ExcLine l d.1 d.2) rows data →
    ∀ {sep : String}, hasSub "-----" sep = true →
    ∀ (rst : List String) (exc osc : Dict ℤ ℚ) (sv : Option ℤ),
    tddftRows exc osc sv (rows ++ sep :: rst) =
      .ok ((data.foldl (fun d p => dinsert p.1 p.2 d) exc, osc,
            data.foldl (fun _ p => some p.1) sv), rst) := by
  intro rows data hrows
  induction hrows with
  | nil =>
    intro sep hsep rst exc osc sv
    simp [tddftRows, hsep]
  | cons h _ ih =>
    intro sep hsep rst exc osc sv
    obtain ⟨h1, h2, h3, h4⟩ := h
    rename_i l d _ _ _
    cases ht2 : (pysplit l)[2]? with
    | none => rw [ht2] at h3; simp at h3
    | some t2 =>
      rw [ht2] at h3
      simp only [Option.some_bind] at h3
      cases ht7 : (pysplit l)[7]? with
      | none => rw [ht7] at h4; simp at h4
      | some t7 =>
        rw [ht7] at h4
        simp only [Option.some_bind] at h4
        simp [tddftRows, h1, h2, ht2, h3, ht7, h4, ih hsep rst]

theorem dinsert_of_lookup_none [DecidableEq κ] {k : κ} {d : Dict κ α}
    (h : dlookup k d = none) (v : α) : dinsert k v d = d ++ [(k, v)] := by
  induction d with
  | nil => simp [dinsert]
  | cons e rest ih =>
    obtain ⟨k', v'⟩ := e
    simp only [dlookup] at h
    by_cases hk : k' = k
    · simp [hk] at h
    · rw [if_neg hk] at h
      simp [dinsert, hk, ih h]

theorem dlookup_append_left [DecidableEq κ] {k : κ} {d : Dict κ α} {v : α}
    (h : dlookup k d = some v) (d' : Dict κ α) : dlookup k (d ++ d') = some v := by
  induction d with
  | nil => simp [dlookup] at h
  | cons e rest ih =>
    obtain ⟨k', v'⟩ := e
    simp only [dlookup] at h ⊢
    by_cases hk : k' = k
    · rwa [if_pos hk] at h ⊢
    · rw [if_neg hk] at h ⊢
      exact ih h

theorem dlookup_append_none [DecidableEq κ] {k : κ} {d d' : Dict κ α}
    (h : dlookup k d = none) : dlookup k (d ++ d') = dlookup k d' := by
  induction d with
  | nil => simp
  | cons e rest ih =>
    obtain ⟨k', v'⟩ := e
    simp only [dlookup] at h ⊢
    by_cases hk : k' = k
    · simp [hk] at h
    · rw [if_neg hk] at h ⊢
      exact ih h

/-- The `energies[state] = energies[0] + en_ex / units.hartree_to_ev` loop,
run over pairs whose keys are fresh (not yet in the accumulator, nonzero and
pairwise distinct), appends the shifted energies in order. -/
theorem addExc_gen : ∀ {data : List (ℤ × ℚ)} {acc : Dict ℤ ℚ} {e0 : ℚ},
    dlookup 0 acc = some e0 →
    (∀ p ∈ data, p.1 ≠ 0 ∧ dlookup p.1 acc = none) →
    (data.map Prod.fst).Nodup →
    addExc acc data = .ok (acc ++ data.map (fun p => (p.1, e0 + p.2 / hartree_to_ev))) := by
  intro data
  induction data with
  | nil =>
    intro acc e0 h0 _ _
    simp [addExc]
  | cons p rest ih =>
    intro acc e0 h0 hfresh hnodup
    obtain ⟨k, en⟩ := p
    have hkacc : dlookup k acc = none := (hfresh (k, en) (by simp)).2
    simp only [addExc, h0]
    rw [dinsert_of_lookup_none hkacc]
    have hih : addExc (acc ++ [(k, e0 + en / hartree_to_ev)]) rest =
        .ok ((acc ++ [(k, e0 + en / hartree_to_ev)]) ++
          rest.map (fun p => (p.1, e0 + p.2 / hartree_to_ev))) := by
      apply ih (dlookup_append_left h0 _)
      · intro q hq
        have hkq : q.1 ≠ k := by
          simp only [List.map_cons, List.nodup_cons] at hnodup
          intro hqk
          exact hnodup.1 (by rw [← hqk]; exact List.mem_map_of_mem Prod.fst hq)
        refine ⟨(hfresh q (by simp [hq])).1, ?_⟩
        rw [dlookup_append_none (hfresh q (by simp [hq])).2]
        simp only [dlookup]
        rw [if_neg (fun hh => hkq hh.symm)]
      · simp only [List.map_cons, List.nodup_cons] at hnodup
        exact hnodup.2
    rw [hih]
    simp

end SGDML
namespace SGDML

/-- `line` is the `TDDFT Excitation Energies` title line (and no earlier
marker of the `elif` chain fires on it). -/
def TddftTitle (line : String) : Prop :=
  hasSub "Standard Nuclear Orientation (Angstroms)" line = false ∧
  hasSub "Total energy in final basis set" line = false ∧
  hasSub "TDDFT Excitation Energies" line = true

theorem qparse_tddft_step {title : String} (htitle : TddftTitle title)
    (hd1 hd2 : String) {rows : List String} {data : List (ℤ × ℚ)}
    (hrows : List.Forall₂ (fun l d => ExcLine l d.1 d.2) rows data)
    {sep : String} (hsep : hasSub "-----" sep = true) (rst : List String)
    (st : QCState) {e0 : ℚ} (hscf : st.scfEnergy = some e0) {ens : Dict ℤ ℚ}
    (hens : addExc (dinsert 0 e0 (getset st.energies []))
        (data.foldl (fun d p => dinsert p.1 p.2 d) (getset st.excEnergies [])) = .ok ens) :
    qparse (title :: hd1 :: hd2 :: (rows ++ sep :: rst)) st =
      qparse rst
        { st with
          excEnergies :=
            some (data.foldl (fun d p => dinsert p.1 p.2 d) (getset st.excEnergies [])),
          oscStrengths := some (getset st.oscStrengths []),
          stateVar := data.foldl (fun _ p => some p.1) st.stateVar,
          energies := some ens } := by
  obtain ⟨h1, h2, h3⟩ := htitle
  rw [qparse.eq_2, if_neg (by simp [h1]), if_neg (by simp [h2]), if_pos h3]
  have ht : tddftRows (getset st.excEnergies []) (getset st.oscStrengths []) st.stateVar
      (List.drop 2 (hd1 :: hd2 :: (rows ++ sep :: rst))) =
      .ok ((data.foldl (fun d p => dinsert p.1 p.2 d) (getset st.excEnergies []),
            getset st.oscStrengths [],
            data.foldl (fun _ p => some p.1) st.stateVar), rst) := by
    simpa using tddftRows_gen hrows hsep rst _ _ _
  split
  · rename_i e heq
    rw [ht] at heq
    simp at heq
  · rename_i exc osc sv rest' heq
    rw [ht] at heq
    injection heq with heq
    injection heq with heq1 heq2
    injection heq1 with hx heq3
    injection heq3 with ho hv
    subst hx
    subst ho
    subst hv
    subst heq2
    simp only [hscf, hens]

end SGDML
namespace SGDML

/-- `line` announces a derivative coupling between states `i` and `j`
(tokens 2 and 4), firing no earlier branch of the chain. -/
def CouplingMarker (line : String) (i j : ℤ) : Prop :=
  hasSub "Standard Nuclear Orientation (Angstroms)" line = false ∧
  hasSub "Total energy in final basis set" line = false ∧
  hasSub "TDDFT Excitation Energies" line = false ∧
  hasSub "between states " line = true ∧
  ((pysplit line)[2]?).bind pyint = some i ∧
  ((pysplit line)[4]?).bind pyint = some j

/-- A coupling-vector row: `parts[1:4]` parses to `v`. -/
def NacRow (line : String) (v : List ℚ) : Prop :=
  hasSub "-----" line = false ∧
  mapFloats (((pysplit line).drop 1).take 3) = some v

theorem nacvRows_gen : ∀ {rows : List String} {data : List (List ℚ)},
    List.Forall₂ NacRow rows data →
    ∀ {sep : String}, hasSub "-----" sep = true → ∀ (rst : List String),
    nacvRows (rows ++ sep :: rst) = .ok (data, rst) := by
  intro rows data hrows
  induction hrows with
  | nil =>
    intro sep hsep rst
    simp [nacvRows, hsep]
  | cons h _ ih =>
    intro sep hsep rst
    obtain ⟨h1, h2⟩ := h
    rw [List.drop_one] at h2
    simp [nacvRows, h1, h2, ih hsep rst]

theorem dcSkip_gen : ∀ {skipped : List String},
    (∀ l ∈ skipped, (hasSub "DC between" l && hasSub "with ETF" l) = false) →
    ∀ {m : String}, (hasSub "DC between" m && hasSub "with ETF" m) = true →
    ∀ (rst : List String), dcSkip (skipped ++ m :: rst) = .ok rst := by
  intro skipped
  induction skipped with
  | nil =>
    intro _ m hm rst
    simp [dcSkip, hm]
  | cons l ls ih =>
    intro hsk m hm rst
    have hl := hsk l (by simp)
    simp [dcSkip, hl, ih (fun x hx => hsk x (by simp [hx])) hm rst]

theorem qparse_coupling_step {line : String} {i j : ℤ}
    (hmark : CouplingMarker line i j) {skipped : List String}
    (hsk : ∀ l ∈ skipped, (hasSub "DC between" l && hasSub "with ETF" l) = false)
    {m : String} (hm : (hasSub "DC between" m && hasSub "with ETF" m) = true)
    (hd1 hd2 : String) {rows : List String} {data : List (List ℚ)}
    (hrows : List.Forall₂ NacRow rows data) {sep : String}
    (hsep : hasSub "-----" sep = true) (rst : List String) (st : QCState) :
    qparse (line :: (skipped ++ m :: hd1 :: hd2 :: (rows ++ sep :: rst))) st =
      qparse rst { st with couplings := dinsert (i, j) data st.couplings } := by
  obtain ⟨h1, h2, h3, h4, h5, h6⟩ := hmark
  rw [qparse.eq_2, if_neg (by simp [h1]), if_neg (by simp [h2]), if_neg (by simp [h3]),
    if_pos h4]
  simp only [h5, h6]
  have hd : dcSkip (skipped ++ m :: hd1 :: hd2 :: (rows ++ sep :: rst)) =
      .ok (hd1 :: hd2 :: (rows ++ sep :: rst)) := dcSkip_gen hsk hm _
  split
  · rename_i e heq
    rw [hd] at heq
    simp at heq
  · rename_i rest1 heq
    rw [hd] at heq
    injection heq with heq
    subst heq
    have hn : nacvRows (List.drop 2 (hd1 :: hd2 :: (rows ++ sep :: rst))) =
        .ok (data, rst) := by
      simpa using nacvRows_gen hrows hsep rst
    split
    · rename_i e heq2
      rw [hn] at heq2
      simp at heq2
    · rename_i nacv rest' heq2
      rw [hn] at heq2
      injection heq2 with heq2
      injection heq2 with ha hb
      subst ha
      subst hb
      rfl

end SGDML
namespace SGDML

/-- Four report lines forming one column-chunk of a gradient table: an
atom-index header row (integers, values unused) and three component rows
whose `parts[1:]` parse to the three given value lists. -/
def GradChunkL (stop : String) (lines : List String) (r0 r1 r2 : List ℚ) : Prop :=
  ∃ hd l0 l1 l2, lines = [hd, l0, l1, l2] ∧
    hasSub stop hd = false ∧
    (mapInts (pysplit hd)).isSome = true ∧
    mapFloats ((pysplit l0).drop 1) = some r0 ∧
    mapFloats ((pysplit l1).drop 1) = some r1 ∧
    mapFloats ((pysplit l2).drop 1) = some r2

/-- `gradChunks` over a sequence of well-formed chunks followed by the stop
marker assembles the transposed chunks in order. -/
theorem gradChunks_gen {stop : String} :
    ∀ {chunks : List (List String × (List ℚ × List ℚ × List ℚ))},
    (∀ c ∈ chunks, GradChunkL stop c.1 c.2.1 c.2.2.1 c.2.2.2) →
    ∀ {stopline : String}, hasSub stop stopline = true → ∀ (rst : List String),
    gradChunks stop ((chunks.map Prod.fst).flatten ++ stopline :: rst) =
      .ok ((chunks.map (fun c => npTranspose [c.2.1, c.2.2.1, c.2.2.2])).flatten, rst) := by
  intro chunks
  induction chunks with
  | nil =>
    intro _ stopline hstop rst
    simp [gradChunks, hstop]
  | cons c rest ih =>
    intro hch stopline hstop rst
    obtain ⟨hd, l0, l1, l2, hlines, hhd, hints, h0, h1, h2⟩ := hch c (by simp)
    obtain ⟨v, hv⟩ := Option.isSome_iff_exists.mp hints
    rw [List.drop_one] at h0 h1 h2
    have ihh := ih (fun x hx => hch x (by simp [hx])) hstop rst
    simp only [List.map_cons, List.flatten, hlines, List.cons_append, List.append_assoc]
    rw [gradChunks.eq_2]
    rw [if_neg (by simp [hhd])]
    simp only [hv]
    simp only [List.nil_append] at ihh ⊢
    have hr0 : gradRow (l0 :: l1 :: l2 :: ((List.map Prod.fst rest).flatten ++ stopline :: rst)) =
        .ok (c.2.1, l1 :: l2 :: ((List.map Prod.fst rest).flatten ++ stopline :: rst)) := by
      simp [gradRow, h0]
    have hr1 : gradRow (l1 :: l2 :: ((List.map Prod.fst rest).flatten ++ stopline :: rst)) =
        .ok (c.2.2.1, l2 :: ((List.map Prod.fst rest).flatten ++ stopline :: rst)) := by
      simp [gradRow, h1]
    have hr2 : gradRow (l2 :: ((List.map Prod.fst rest).flatten ++ stopline :: rst)) =
        .ok (c.2.2.2, (List.map Prod.fst rest).flatten ++ stopline :: rst) := by
      simp [gradRow, h2]
    split
    · rename_i e heq
      rw [hr0] at heq
      simp at heq
    · rename_i r0 rest0 heq
      rw [hr0] at heq
      injection heq with heq
      injection heq with ha hb
      subst ha
      subst hb
      split
      · rename_i e heq
        rw [hr1] at heq
        simp at heq
      · rename_i r1 rest1 heq
        rw [hr1] at heq
        injection heq with heq
        injection heq with ha hb
        subst ha
        subst hb
        split
        · rename_i e heq
          rw [hr2] at heq
          simp at heq
        · rename_i r2 rest2 heq
          rw [hr2] at heq
          injection heq with heq
          injection heq with ha hb
          subst ha
          subst hb
          rw [ihh]

end SGDML
namespace SGDML

/-- `line` is the `Gradient of SCF Energy` title (and no earlier marker). -/
def GradScfTitle (line : String) : Prop :=
  hasSub "Standard Nuclear Orientation (Angstroms)" line = false ∧
  hasSub "Total energy in final basis set" line = false ∧
  hasSub "TDDFT Excitation Energies" line = false ∧
  hasSub "between states " line = false ∧
  hasSub "Gradient of SCF Energy" line = true

theorem qparse_gradscf_step {title : String} (htitle : GradScfTitle title)
    {chunks : List (List String × (List ℚ × List ℚ × List ℚ))}
    (hch : ∀ c ∈ chunks, GradChunkL "Max gradient" c.1 c.2.1 c.2.2.1 c.2.2.2)
    {stopline : String} (hstop : hasSub "Max gradient" stopline = true)
    (rst : List String) (st : QCState) :
    qparse (title :: ((chunks.map Prod.fst).flatten ++ stopline :: rst)) st =
      qparse rst
        { st with
          gradients := dinsert 0
            ((chunks.map (fun c => npTranspose [c.2.1, c.2.2.1, c.2.2.2])).flatten)
            st.gradients } := by
  obtain ⟨h1, h2, h3, h4, h5⟩ := htitle
  rw [qparse.eq_2, if_neg (by simp [h1]), if_neg (by simp [h2]), if_neg (by simp [h3]),
    if_neg (by simp [h4]), if_pos h5]
  have hg := gradChunks_gen hch hstop rst
  split
  · rename_i e heq
    rw [hg] at heq
    simp at heq
  · rename_i grad rest' heq
    rw [hg] at heq
    injection heq with heq
    injection heq with ha hb
    subst ha
    subst hb
    rfl

/-- `line` is an `... RPA ... State Energy is` announcement for state `s`
(token 1), firing no earlier branch. -/
def RpaLine (line : String) (s : ℤ) : Prop :=
  hasSub "Standard Nuclear Orientation (Angstroms)" line = false ∧
  hasSub "Total energy in final basis set" line = false ∧
  hasSub "TDDFT Excitation Energies" line = false ∧
  hasSub "between states " line = false ∧
  hasSub "Gradient of SCF Energy" line = false ∧
  (hasSub "RPA" line && hasSub "State Energy is" line) = true ∧
  ((pysplit line)[1]?).bind pyint = some s

theorem qparse_rpa_step {line : String} {s : ℤ} (h : RpaLine line s)
    (rest : List String) (st : QCState) :
    qparse (line :: rest) st = qparse rest { st with stateVar := some s } := by
  obtain ⟨h1, h2, h3, h4, h5, h6, h7⟩ := h
  rw [qparse.eq_2, if_neg (by simp [h1]), if_neg (by simp [h2]), if_neg (by simp [h3]),
    if_neg (by simp [h4]), if_neg (by simp [h5]), if_pos h6]
  simp only [h7]

/-- `line` is the `Gradient of the state energy` title (and no earlier
marker). -/
def GradExTitle (line : String) : Prop :=
  hasSub "Standard Nuclear Orientation (Angstroms)" line = false ∧
  hasSub "Total energy in final basis set" line = false ∧
  hasSub "TDDFT Excitation Energies" line = false ∧
  hasSub "between states " line = false ∧
  hasSub "Gradient of SCF Energy" line = false ∧
  (hasSub "RPA" line && hasSub "State Energy is" line) = false ∧
  hasSub "Gradient of the state energy" line = true

theorem qparse_gradex_step {title : String} (htitle : GradExTitle title)
    {chunks : List (List String × (List ℚ × List ℚ × List ℚ))}
    (hch : ∀ c ∈ chunks, GradChunkL "Gradient time" c.1 c.2.1 c.2.2.1 c.2.2.2)
    {stopline : String} (hstop : hasSub "Gradient time" stopline = true)
    (rst : List String) (st : QCState) {s : ℤ} (hsv : st.stateVar = some s) :
    qparse (title :: ((chunks.map Prod.fst).flatten ++ stopline :: rst)) st =
      qparse rst
        { st with
          gradients := dinsert s
            ((chunks.map (fun c => npTranspose [c.2.1, c.2.2.1, c.2.2.2])).flatten)
            st.gradients } := by
  obtain ⟨h1, h2, h3, h4, h5, h6, h7⟩ := htitle
  rw [qparse.eq_2, if_neg (by simp [h1]), if_neg (by simp [h2]), if_neg (by simp [h3]),
    if_neg (by simp [h4]), if_neg (by simp [h5]), if_neg (by simp [h6]), if_pos h7]
  have hg := gradChunks_gen hch hstop rst
  split
  · rename_i e heq
    rw [hg] at heq
    simp at heq
  · rename_i grad rest' heq
    rw [hg] at heq
    injection heq with heq
    injection heq with ha hb
    subst ha
    subst hb
    simp only [hsv]

end SGDML
namespace SGDML

theorem dlookup_dinsert [DecidableEq κ] (i k : κ) (v : α) (d : Dict κ α) :
    dlookup i (dinsert k v d) = if k = i then some v else dlookup i d := by
  induction d with
  | nil => simp [dinsert, dlookup]
  | cons e rest ih =>
    obtain ⟨k', v'⟩ := e
    by_cases hk : k' = k
    · subst hk
      by_cases hik : k' = i
      · simp [dinsert, dlookup, hik]
      · simp [dinsert, dlookup, hik]
    · simp only [dinsert, if_neg hk]
      by_cases hik : k' = i
      · subst hik
        have : ¬(k = k') := fun hh => hk hh.symm
        simp [dlookup, this]
      · simp [dlookup, hik, ih]

/-- `addExc` never removes the ground-state entry. -/
theorem addExc_keeps_zero : ∀ {data : List (ℤ × ℚ)} {acc ens : Dict ℤ ℚ},
    addExc acc data = .ok ens → (dlookup 0 acc).isSome = true →
    (dlookup 0 ens).isSome = true := by
  intro data
  induction data with
  | nil =>
    intro acc ens h hz
    simp only [addExc] at h
    injection h with h
    subst h
    exact hz
  | cons p rest ih =>
    intro acc ens h hz
    obtain ⟨k, en⟩ := p
    simp only [addExc] at h
    cases h0 : dlookup 0 acc with
    | none => rw [h0] at h; simp at h
    | some e0 =>
      rw [h0] at h
      refine ih h ?_
      rw [dlookup_dinsert]
      by_cases hk : k = 0 <;> simp [hk, h0]

/-- The success-marker disjunct: `ok` unchanged, or the marker line occurs. -/
def OkDisj (st st' : QCState) (ls : List String) : Prop :=
  st'.ok = st.ok ∨ ∃ l ∈ ls, hasSub "Thank you very much for using Q-Chem." l = true

/-- The energies dictionary, when present, holds the ground-state key 0. -/
def EnInv (st : QCState) : Prop :=
  ∀ ens, st.energies = some ens → (dlookup 0 ens).isSome = true

theorem inv_lift {st stN st' : QCState} {line : String} {rest rest' : List String}
    (hres : OkDisj stN st' rest' ∧ (EnInv stN → EnInv st'))
    (hsub : rest' ⊆ rest) (hok : stN.ok = st.ok) (hen : stN.energies = st.energies) :
    OkDisj st st' (line :: rest) ∧ (EnInv st → EnInv st') := by
  obtain ⟨hokr, henr⟩ := hres
  constructor
  · rcases hokr with hokr | ⟨l, hl, hml⟩
    · exact Or.inl (hokr.trans hok)
    · exact Or.inr ⟨l, List.mem_cons_of_mem _ (hsub hl), hml⟩
  · intro hstart
    apply henr
    intro ens hens
    rw [hen] at hens
    exact hstart ens hens

/-- State invariants preserved by the whole dispatch loop: the `ok` flag
only flips when the success-marker line occurs, and the energies dictionary,
once present, always holds the ground-state key `0`. -/
theorem qparse_invariants_aux : ∀ (n : ℕ) {ls : List String} {st st' : QCState},
    ls.length ≤ n → qparse ls st = .ok st' →
    OkDisj st st' ls ∧ (EnInv st → EnInv st') := by
  intro n
  induction n with
  | zero =>
    intro ls st st' hle h
    cases ls with
    | nil =>
      rw [qparse_nil] at h
      injection h with h
      subst h
      exact ⟨Or.inl rfl, fun hz => hz⟩
    | cons l rest => simp at hle
  | succ n ih =>
    intro ls st st' hle h
    cases ls with
    | nil =>
      rw [qparse_nil] at h
      injection h with h
      subst h
      exact ⟨Or.inl rfl, fun hz => hz⟩
    | cons line rest =>
      simp only [List.length_cons] at hle
      by_cases hm1 : hasSub "Standard Nuclear Orientation (Angstroms)" line = true
      · rw [qparse.eq_2, if_pos hm1] at h
        split at h
        · exact absurd h (by simp)
        · rename_i symbols geometry rest' heq
          have hmem : rest' <:+ rest := (geomRows_suffix heq).trans (List.drop_suffix 3 rest)
          have hlen : rest'.length ≤ n := by
            have h1 := (geomRows_suffix heq).length_le
            have h2 : (rest.drop 3).length = rest.length - 3 := List.length_drop 3 rest
            omega
          exact inv_lift (ih hlen h) hmem.subset rfl rfl
      · by_cases hm2 : hasSub "Total energy in final basis set" line = true
        · rw [qparse.eq_2, if_neg hm1, if_pos hm2] at h
          split at h
          · exact absurd h (by simp)
          · split at h
            · exact absurd h (by simp)
            · exact inv_lift (ih (by omega) h) (fun _ hx => hx) rfl rfl
        · by_cases hm3 : hasSub "TDDFT Excitation Energies" line = true
          · rw [qparse.eq_2, if_neg hm1, if_neg hm2, if_pos hm3] at h
            split at h
            · exact absurd h (by simp)
            · rename_i exc osc sv rest' heq
              split at h
              · exact absurd h (by simp)
              · rename_i e0 hscf
                split at h
                · exact absurd h (by simp)
                · rename_i ens hens
                  have hmem : rest' <:+ rest :=
                    (tddftRows_suffix heq).trans (List.drop_suffix 2 rest)
                  have hlen : rest'.length ≤ n := by
                    have h1 := (tddftRows_suffix heq).length_le
                    have h2 : (rest.drop 2).length = rest.length - 2 := List.length_drop 2 rest
                    omega
                  obtain ⟨hokr, henr⟩ := ih hlen h
                  constructor
                  · rcases hokr with hokr | ⟨l, hl, hml⟩
                    · exact Or.inl hokr
                    · exact Or.inr ⟨l, List.mem_cons_of_mem _ (hmem.subset hl), hml⟩
                  · intro _
                    apply henr
                    intro ens' hens'
                    simp only [Option.some.injEq] at hens'
                    subst hens'
                    refine addExc_keeps_zero hens ?_
                    rw [dlookup_dinsert]
                    simp
          · by_cases hm4 : hasSub "between states " line = true
            · rw [qparse.eq_2, if_neg hm1, if_neg hm2, if_neg hm3, if_pos hm4] at h
              split at h
              · exact absurd h (by simp)
              · split at h
                · exact absurd h (by simp)
                · split at h
                  · exact absurd h (by simp)
                  · rename_i rest1 hskip
                    split at h
                    · exact absurd h (by simp)
                    · rename_i nacv rest' heq
                      have hmem : rest' <:+ rest :=
                        ((nacvRows_suffix heq).trans (List.drop_suffix 2 rest1)).trans
                          (dcSkip_suffix hskip)
                      have hlen : rest'.length ≤ n := by
                        have h1 := (dcSkip_suffix hskip).length_le
                        have h2 := (nacvRows_suffix heq).length_le
                        have h3 : (rest1.drop 2).length = rest1.length - 2 :=
                          List.length_drop 2 rest1
                        omega
                      exact inv_lift (ih hlen h) hmem.subset rfl rfl
            · by_cases hm5 : hasSub "Gradient of SCF Energy" line = true
              · rw [qparse.eq_2, if_neg hm1, if_neg hm2, if_neg hm3, if_neg hm4,
                  if_pos hm5] at h
                split at h
                · exact absurd h (by simp)
                · rename_i grad rest' heq
                  have hmem : rest' <:+ rest := gradChunks_suffix heq
                  have hlen : rest'.length ≤ n := by
                    have h1 := (gradChunks_suffix heq).length_le
                    omega
                  exact inv_lift (ih hlen h) hmem.subset rfl rfl
              · by_cases hm6 : (hasSub "RPA" line && hasSub "State Energy is" line) = true
                · rw [qparse.eq_2, if_neg hm1, if_neg hm2, if_neg hm3, if_neg hm4,
                    if_neg hm5, if_pos hm6] at h
                  split at h
                  · exact absurd h (by simp)
                  · exact inv_lift (ih (by omega) h) (fun _ hx => hx) rfl rfl
                · by_cases hm7 : hasSub "Gradient of the state energy" line = true
                  · rw [qparse.eq_2, if_neg hm1, if_neg hm2, if_neg hm3, if_neg hm4,
                      if_neg hm5, if_neg hm6, if_pos hm7] at h
                    split at h
                    · exact absurd h (by simp)
                    · rename_i grad rest' heq
                      split at h
                      · exact absurd h (by simp)
                      · have hmem : rest' <:+ rest := gradChunks_suffix heq
                        have hlen : rest'.length ≤ n := by
                          have h1 := (gradChunks_suffix heq).length_le
                          omega
                        exact inv_lift (ih hlen h) hmem.subset rfl rfl
                  · by_cases hm8 : hasSub "Thank you very much for using Q-Chem." line = true
                    · rw [qparse.eq_2, if_neg hm1, if_neg hm2, if_neg hm3, if_neg hm4,
                        if_neg hm5, if_neg hm6, if_neg hm7, if_pos hm8] at h
                      obtain ⟨_, henr⟩ := ih (by omega) h
                      constructor
                      · exact Or.inr ⟨line, by simp, hm8⟩
                      · exact henr
                    · rw [qparse.eq_2, if_neg hm1, if_neg hm2, if_neg hm3, if_neg hm4,
                        if_neg hm5, if_neg hm6, if_neg hm7, if_neg hm8] at h
                      exact inv_lift (ih (by omega) h) (fun _ hx => hx) rfl rfl

end SGDML
namespace SGDML

/-- A report in which no line triggers any handler parses to the unchanged
state: every map stays as it was, `ok` stays false. -/
theorem qparse_all_inert : ∀ {ls : List String}, (∀ l ∈ ls, InertLine l) →
    ∀ (st : QCState), qparse ls st = .ok st := by
  intro ls
  induction ls with
  | nil => intro _ st; exact qparse_nil st
  | cons line rest ih =>
    intro hin st
    rw [qparse_inert (hin line (by simp)) rest st]
    exact ih (fun l hl => hin l (by simp [hl])) st

/-- A `TDDFT Excitation Energies` section reached while `scf energy` is
still unset raises `KeyError` at `energies[0] = self['scf energy']`. -/
theorem qparse_tddft_keyerror {title : String} (htitle : TddftTitle title)
    (hd1 hd2 : String) {rows : List String} {data : List (ℤ × ℚ)}
    (hrows : List.Forall₂ (fun l d => ExcLine l d.1 d.2) rows data)
    {sep : String} (hsep : hasSub "-----" sep = true) (rst : List String)
    (st : QCState) (hscf : st.scfEnergy = none) :
    qparse (title :: hd1 :: hd2 :: (rows ++ sep :: rst)) st = .error .keyError := by
  obtain ⟨h1, h2, h3⟩ := htitle
  rw [qparse.eq_2, if_neg (by simp [h1]), if_neg (by simp [h2]), if_pos h3]
  have ht : tddftRows (getset st.excEnergies []) (getset st.oscStrengths []) st.stateVar
      (List.drop 2 (hd1 :: hd2 :: (rows ++ sep :: rst))) =
      .ok ((data.foldl (fun d p => dinsert p.1 p.2 d) (getset st.excEnergies []),
            getset st.oscStrengths [],
            data.foldl (fun _ p => some p.1) st.stateVar), rst) := by
    simpa using tddftRows_gen hrows hsep rst _ _ _
  split
  · rename_i e heq
    rw [ht] at heq
    simp at heq
  · rename_i exc osc sv rest' heq
    rw [ht] at heq
    simp only [hscf]

end SGDML

namespace SGDML

theorem dlookup_derase_ne [DecidableEq κ] {i k : κ} (h : i ≠ k) (d : Dict κ α) :
    dlookup i (derase k d) = dlookup i d := by
  induction d with
  | nil => simp [derase]
  | cons e rest ih =>
    obtain ⟨k', v'⟩ := e
    by_cases hk : k' = k
    · subst hk
      have hne : ¬(k' = i) := fun hh => h (hh.symm ▸ rfl)
      simp [derase, dlookup, hne]
    · by_cases hik : k' = i
      · simp [derase, dlookup, hk, hik, h]
      · simp [derase, dlookup, hk, hik, ih]

theorem dlookup_eq_none_iff [DecidableEq κ] {k : κ} {d : Dict κ α} :
    dlookup k d = none ↔ k ∉ d.map Prod.fst := by
  induction d with
  | nil => simp [dlookup]
  | cons e rest ih =>
    obtain ⟨k', v'⟩ := e
    by_cases hk : k' = k
    · subst hk
      simp [dlookup]
    · rw [dlookup, if_neg hk, ih]
      simp only [List.map_cons, List.mem_cons]
      constructor
      · intro hnm
        rintro (hkk | hmem)
        · exact hk hkk.symm
        · exact hnm hmem
      · intro hnm hmem
        exact hnm (Or.inr hmem)

theorem mem_keys_derase [DecidableEq κ] {i k : κ} {d : Dict κ α}
    (h : i ∈ (derase k d).map Prod.fst) : i ∈ d.map Prod.fst := by
  induction d with
  | nil => simpa [derase] using h
  | cons e rest ih =>
    obtain ⟨k', v'⟩ := e
    by_cases hk : k' = k
    · subst hk
      rw [derase, if_pos rfl] at h
      simp [h]
    · simp only [derase, if_neg hk, List.map_cons, List.mem_cons] at h
      rcases h with h | h
      · simp [h]
      · simp [ih h]

theorem keys_nodup_derase [DecidableEq κ] (k : κ) {d : Dict κ α}
    (h : (d.map Prod.fst).Nodup) : ((derase k d).map Prod.fst).Nodup := by
  induction d with
  | nil => simp [derase]
  | cons e rest ih =>
    obtain ⟨k', v'⟩ := e
    simp only [List.map_cons, List.nodup_cons] at h
    by_cases hk : k' = k
    · subst hk
      simpa [derase] using h.2
    · simp only [derase, if_neg hk, List.map_cons, List.nodup_cons]
      exact ⟨fun hmem => h.1 (mem_keys_derase hmem), ih h.2⟩

theorem not_mem_keys_derase_self [DecidableEq κ] {k : κ} {d : Dict κ α}
    (h : (d.map Prod.fst).Nodup) : k ∉ (derase k d).map Prod.fst := by
  induction d with
  | nil => simp [derase]
  | cons e rest ih =>
    obtain ⟨k', v'⟩ := e
    simp only [List.map_cons, List.nodup_cons] at h
    by_cases hk : k' = k
    · subst hk
      simpa [derase] using h.1
    · simp only [derase, if_neg hk, List.map_cons, List.mem_cons]
      rintro (hkk | hmem)
      · exact hk hkk.symm
      · exact ih h.2 hmem

theorem dlookup_derase_self [DecidableEq κ] {k : κ} {d : Dict κ α}
    (h : (d.map Prod.fst).Nodup) : dlookup k (derase k d) = none :=
  dlookup_eq_none_iff.mpr (not_mem_keys_derase_self h)

theorem mem_keys_dinsert [DecidableEq κ] {i k : κ} {v : α} {d : Dict κ α} :
    i ∈ (dinsert k v d).map Prod.fst ↔ i = k ∨ i ∈ d.map Prod.fst := by
  induction d with
  | nil => simp [dinsert]
  | cons e rest ih =>
    obtain ⟨k', v'⟩ := e
    by_cases hk : k' = k
    · subst hk
      simp [dinsert]
    · simp only [dinsert, if_neg hk, List.map_cons, List.mem_cons, ih]
      tauto

theorem keys_nodup_dinsert [DecidableEq κ] (k : κ) (v : α) {d : Dict κ α}
    (h : (d.map Prod.fst).Nodup) : ((dinsert k v d).map Prod.fst).Nodup := by
  induction d with
  | nil => simp [dinsert]
  | cons e rest ih =>
    obtain ⟨k', v'⟩ := e
    simp only [List.map_cons, List.nodup_cons] at h
    by_cases hk : k' = k
    · subst hk
      rw [dinsert, if_pos rfl]
      simp only [List.map_cons, List.nodup_cons]
      exact h
    · simp only [dinsert, if_neg hk, List.map_cons, List.nodup_cons]
      refine ⟨?_, ih h.2⟩
      rw [mem_keys_dinsert]
      rintro (hkk | hmem)
      · exact hk hkk
      · exact h.1 hmem

end SGDML
namespace SGDML

/-- Invariant of the ordered result channel after the completion events
listed in `S` have been processed: everything below `next` has been emitted
in submission order, and the buffer holds exactly the completed results
whose turn has not come. -/
def PoolInv (results : ℕ → β) (S : List ℕ) (st : PoolSt β) : Prop :=
  st.emitted = (List.range st.next).map results ∧
  (∀ i, dlookup i st.buffer =
    if i ∈ S ∧ st.next ≤ i then some (results i) else none) ∧
  (∀ i, i < st.next → i ∈ S) ∧
  (st.buffer.map Prod.fst).Nodup

theorem flushLoop_inv (results : ℕ → β) (S : List ℕ) :
    ∀ (fuel : ℕ) (buf : Dict ℕ β) (next : ℕ) (emitted : List β),
    buf.length ≤ fuel →
    emitted = (List.range next).map results →
    (∀ i, dlookup i buf = if i ∈ S ∧ next ≤ i then some (results i) else none) →
    (∀ i, i < next → i ∈ S) →
    (buf.map Prod.fst).Nodup →
    ∀ {buf' : Dict ℕ β} {next' : ℕ} {em' : List β},
    flushLoop buf next emitted = (buf', next', em') →
    PoolInv results S ⟨buf', next', em'⟩ ∧ dlookup next' buf' = none := by
  intro fuel
  induction fuel with
  | zero =>
    intro buf next emitted hfuel hem hchar hlow hnd buf' next' em' hfl
    have hbuf : buf = [] := List.length_eq_zero.mp (Nat.le_zero.mp hfuel)
    subst hbuf
    rw [flushLoop] at hfl
    simp only [dlookup] at hfl
    injection hfl with h1 h2
    injection h2 with h2 h3
    subst h1
    subst h2
    subst h3
    refine ⟨⟨hem, hchar, hlow, hnd⟩, ?_⟩
    simp [dlookup]
  | succ n ih =>
    intro buf next emitted hfuel hem hchar hlow hnd buf' next' em' hfl
    rw [flushLoop] at hfl
    split at hfl
    · rename_i hnone
      injection hfl with h1 h2
      injection h2 with h2 h3
      subst h1
      subst h2
      subst h3
      exact ⟨⟨hem, hchar, hlow, hnd⟩, hnone⟩
    · rename_i v hsome
      have hmemS : next ∈ S ∧ v = results next := by
        have := hchar next
        rw [hsome] at this
        by_cases hc : next ∈ S ∧ next ≤ next
        · rw [if_pos hc] at this
          injection this with this
          exact ⟨hc.1, this⟩
        · rw [if_neg hc] at this
          exact absurd this (by simp)
      have hlt := derase_length_lt hsome
      refine ih (derase next buf) (next + 1) (emitted ++ [v]) (by omega) ?_ ?_ ?_ ?_ hfl
      · rw [hem, hmemS.2, List.range_succ]
        simp
      · intro i
        by_cases hik : i = next
        · subst hik
          rw [dlookup_derase_self hnd]
          rw [if_neg (by omega)]
        · rw [dlookup_derase_ne hik, hchar i]
          by_cases hS : i ∈ S
          · by_cases hle : next ≤ i
            · have hle' : next + 1 ≤ i := by omega
              rw [if_pos ⟨hS, hle⟩, if_pos ⟨hS, hle'⟩]
            · rw [if_neg (by tauto), if_neg (by omega)]
          · rw [if_neg (by tauto), if_neg (by tauto)]
      · intro i hi
        by_cases hik : i = next
        · subst hik
          exact hmemS.1
        · exact hlow i (by omega)
      · exact keys_nodup_derase next hnd

theorem poolStep_eq (st : PoolSt β) (iv : ℕ × β) :
    poolStep st iv =
      ⟨(flushLoop (dinsert iv.1 iv.2 st.buffer) st.next st.emitted).1,
       (flushLoop (dinsert iv.1 iv.2 st.buffer) st.next st.emitted).2.1,
       (flushLoop (dinsert iv.1 iv.2 st.buffer) st.next st.emitted).2.2⟩ := by
  unfold poolStep
  rcases flushLoop (dinsert iv.1 iv.2 st.buffer) st.next st.emitted with ⟨a, b, c⟩
  rfl

theorem poolStep_inv {results : ℕ → β} {S : List ℕ} {st : PoolSt β}
    (hinv : PoolInv results S st) {j : ℕ} (hj : j ∉ S) :
    PoolInv results (j :: S) (poolStep st (j, results j)) ∧
    dlookup (poolStep st (j, results j)).next (poolStep st (j, results j)).buffer = none := by
  obtain ⟨hem, hchar, hlow, hnd⟩ := hinv
  have hnextj : st.next ≤ j := by
    by_contra hc
    exact hj (hlow j (by omega))
  rcases hfl : flushLoop (dinsert j (results j) st.buffer) st.next st.emitted with
    ⟨buf', next', em'⟩
  have hps : poolStep st (j, results j) = ⟨buf', next', em'⟩ := by
    rw [poolStep_eq, hfl]
  rw [hps]
  refine flushLoop_inv results (j :: S) (dinsert j (results j) st.buffer).length
    _ _ _ le_rfl hem ?_ ?_ ?_ hfl
  · intro i
    rw [dlookup_dinsert]
    by_cases hij : j = i
    · subst hij
      rw [if_pos rfl, if_pos ⟨by simp, hnextj⟩]
    · rw [if_neg hij, hchar i]
      have hmem : (i ∈ j :: S) ↔ (i ∈ S) := by
        simp only [List.mem_cons]
        constructor
        · rintro (hh | hh)
          · exact absurd hh.symm hij
          · exact hh
        · exact Or.inr
      by_cases hc : i ∈ S ∧ st.next ≤ i
      · rw [if_pos hc, if_pos ⟨hmem.mpr hc.1, hc.2⟩]
      · rw [if_neg hc, if_neg (fun hh => hc ⟨hmem.mp hh.1, hh.2⟩)]
  · intro i hi
    exact List.mem_cons_of_mem _ (hlow i hi)
  · exact keys_nodup_dinsert j (results j) hnd

end SGDML
namespace SGDML

theorem imapEmit_fold_inv (results : ℕ → β) : ∀ (order S : List ℕ) (st : PoolSt β),
    PoolInv results S st → dlookup st.next st.buffer = none →
    order.Nodup → (∀ j ∈ order, j ∉ S) →
    ∃ S', (∀ i, i ∈ S' ↔ (i ∈ order ∨ i ∈ S)) ∧
      PoolInv results S' (order.foldl (fun st i => poolStep st (i, results i)) st) ∧
      dlookup (order.foldl (fun st i => poolStep st (i, results i)) st).next
        (order.foldl (fun st i => poolStep st (i, results i)) st).buffer = none := by
  intro order
  induction order with
  | nil =>
    intro S st hinv hnone _ _
    exact ⟨S, fun i => by simp, hinv, hnone⟩
  | cons j os ih =>
    intro S st hinv hnone hnd hfresh
    simp only [List.nodup_cons] at hnd
    simp only [List.foldl_cons]
    obtain ⟨hinv1, hnone1⟩ := poolStep_inv hinv (hfresh j (by simp))
    have hfr2 : ∀ x ∈ os, x ∉ j :: S := by
      intro x hx
      simp only [List.mem_cons]
      rintro (hxj | hxS)
      · exact hnd.1 (hxj ▸ hx)
      · exact hfresh x (by simp [hx]) hxS
    obtain ⟨S'', hS'', hinv2, hnone2⟩ :=
      ih (j :: S) (poolStep st (j, results j)) hinv1 hnone1 hnd.2 hfr2
    refine ⟨S'', ?_, hinv2, hnone2⟩
    intro i
    rw [hS'' i]
    simp only [List.mem_cons]
    tauto

/-- Modelled pool ordering: whatever completion order a run takes (any
permutation of the submission indices), the delivered sequence is the
results in submission order. -/
theorem imapEmit_perm (results : ℕ → β) {n : ℕ} {order : List ℕ}
    (h : order.Perm (List.range n)) :
    (imapEmit results order).emitted = (List.range n).map results := by
  have hinit : PoolInv results [] (⟨[], 0, []⟩ : PoolSt β) := by
    refine ⟨by simp, ?_, ?_, by simp⟩
    · intro i
      simp [dlookup]
    · intro i hi
      exact absurd hi (by simp)
  have hnd : order.Nodup := h.nodup_iff.mpr (List.nodup_range n)
  obtain ⟨S', hS', hinv, hnone⟩ :=
    imapEmit_fold_inv results order [] ⟨[], 0, []⟩ hinit (by simp [dlookup]) hnd
      (by simp)
  obtain ⟨hem, hchar, hlow, _⟩ := hinv
  set stF := order.foldl (fun st i => poolStep st (i, results i)) (⟨[], 0, []⟩ : PoolSt β)
  have hmemS : ∀ i, i ∈ S' ↔ i < n := by
    intro i
    rw [hS' i]
    simp [h.mem_iff, List.mem_range]
  have hnotS : stF.next ∉ S' := by
    intro hmem
    have := hchar stF.next
    rw [hnone, if_pos ⟨hmem, le_rfl⟩] at this
    exact absurd this (by simp)
  have hnext : stF.next = n := by
    have h1 : ¬(stF.next < n) := fun hc => hnotS ((hmemS stF.next).mpr hc)
    have h2 : stF.next ≤ n := by
      by_contra hc
      have hn : n < stF.next := by omega
      have := (hmemS n).mp ((hlow n hn))
      omega
    omega
  rw [show imapEmit results order = stF from rfl, hem, hnext]

end SGDML
namespace SGDML

/-! ### Aggregator lemmas -/

theorem writeGradients_sv {symbols : List String} {positions : List (List ℚ)}
    {ensOpt : Option (Dict ℤ ℚ)} {ap : Bool} : ∀ {grads : Dict ℤ (List (List ℚ))}
    {fs : FS} {sv : Option ℤ} {fs' : FS} {sv' : Option ℤ},
    writeGradients symbols positions ensOpt ap fs sv grads = .ok (fs', sv') →
    sv' = grads.foldl (fun s p => some p.1) sv := by
  intro grads
  induction grads with
  | nil =>
    intro fs sv fs' sv' h
    simp only [writeGradients] at h
    injection h with h
    injection h with _ h2
    exact h2.symm
  | cons p rest ih =>
    intro fs sv fs' sv' h
    obtain ⟨state, gradient⟩ := p
    simp only [writeGradients] at h
    split at h
    · exact absurd h (by simp)
    · split at h
      · exact absurd h (by simp)
      · simpa using ih h

theorem writeGradients_unchanged {symbols : List String} {positions : List (List ℚ)}
    {ensOpt : Option (Dict ℤ ℚ)} {ap : Bool} : ∀ {grads : Dict ℤ (List (List ℚ))}
    {fs : FS} {sv : Option ℤ} {fs' : FS} {sv' : Option ℤ} {k : OutKey},
    writeGradients symbols positions ensOpt ap fs sv grads = .ok (fs', sv') →
    (∀ p ∈ grads, OutKey.forces p.1 ≠ k) → fs' k = fs k := by
  intro grads
  induction grads with
  | nil =>
    intro fs sv fs' sv' k h _
    simp only [writeGradients] at h
    injection h with h
    injection h with h1 _
    rw [← h1]
  | cons p rest ih =>
    intro fs sv fs' sv' k h hk
    obtain ⟨state, gradient⟩ := p
    simp only [writeGradients] at h
    split at h
    · exact absurd h (by simp)
    · split at h
      · exact absurd h (by simp)
      · rw [ih h (fun q hq => hk q (by simp [hq]))]
        simp only [writeFrame]
        rw [if_neg (fun hh => hk (state, gradient) (by simp) (by rw [hh]))]

theorem writeGradients_spec {symbols : List String} {positions : List (List ℚ)}
    {ens : Dict ℤ ℚ} {ap : Bool} : ∀ {grads : Dict ℤ (List (List ℚ))}
    {fs : FS} {sv : Option ℤ} {fs' : FS} {sv' : Option ℤ},
    writeGradients symbols positions (some ens) ap fs sv grads = .ok (fs', sv') →
    (grads.map Prod.fst).Nodup →
    ∀ s G, (s, G) ∈ grads → ∃ en, dlookup s ens = some en ∧
      fs' (.forces s) =
        (if ap then fs (.forces s) ++ [⟨symbols, positions, en, negMat G⟩]
         else [⟨symbols, positions, en, negMat G⟩]) := by
  intro grads
  induction grads with
  | nil =>
    intro fs sv fs' sv' _ _ s G hmem
    simp at hmem
  | cons p rest ih =>
    intro fs sv fs' sv' h hnd s G hmem
    obtain ⟨state, gradient⟩ := p
    simp only [List.map_cons, List.nodup_cons] at hnd
    simp only [writeGradients] at h
    split at h
    · exact absurd h (by simp)
    · rename_i en hen
      rcases List.mem_cons.mp hmem with hmem1 | hmem2
      · injection hmem1 with h1 h2
        subst h1
        subst h2
        refine ⟨en, hen, ?_⟩
        rw [writeGradients_unchanged h ?_]
        · simp [writeFrame]
        · intro q hq hkey
          apply hnd.1
          have : q.1 = s := by
            injection hkey
          rw [← this]
          exact List.mem_map_of_mem Prod.fst hq
      · obtain ⟨en', hen', hfs⟩ := ih h hnd.2 s G hmem2
        refine ⟨en', hen', ?_⟩
        rw [hfs]
        have hne : ¬((OutKey.forces s) = (OutKey.forces state)) := by
          intro hh
          apply hnd.1
          have hss : s = state := by injection hh
          rw [← hss]
          exact List.mem_map_of_mem Prod.fst hmem2
        simp only [writeFrame]
        rw [if_neg hne]

theorem writeCouplings_unchanged {symbols : List String} {positions : List (List ℚ)}
    {ensOpt : Option (Dict ℤ ℚ)} {ap : Bool} : ∀ {coups : Dict (ℤ × ℤ) (List (List ℚ))}
    {fs : FS} {sv : Option ℤ} {fs' : FS} {k : OutKey},
    writeCouplings symbols positions ensOpt ap fs sv coups = .ok fs' →
    (∀ p ∈ coups, OutKey.nacvec p.1.1 p.1.2 ≠ k) → fs' k = fs k := by
  intro coups
  induction coups with
  | nil =>
    intro fs sv fs' k h _
    simp only [writeCouplings] at h
    injection h with h
    rw [← h]
  | cons p rest ih =>
    intro fs sv fs' k h hk
    obtain ⟨⟨s1, s2⟩, nac⟩ := p
    simp only [writeCouplings] at h
    split at h
    · exact absurd h (by simp)
    · split at h
      · exact absurd h (by simp)
      · split at h
        · exact absurd h (by simp)
        · rw [ih h (fun q hq => hk q (by simp [hq]))]
          simp only [writeFrame]
          rw [if_neg (fun hh => hk ((s1, s2), nac) (by simp) (by rw [hh]))]

theorem writeCouplings_spec {symbols : List String} {positions : List (List ℚ)}
    {ens : Dict ℤ ℚ} {ap : Bool} {state : ℤ} : ∀ {coups : Dict (ℤ × ℤ) (List (List ℚ))}
    {fs : FS} {fs' : FS},
    writeCouplings symbols positions (some ens) ap fs (some state) coups = .ok fs' →
    (coups.map Prod.fst).Nodup →
    ∀ s1 s2 nac, ((s1, s2), nac) ∈ coups → ∃ en, dlookup state ens = some en ∧
      fs' (.nacvec s1 s2) =
        (if ap then fs (.nacvec s1 s2) ++ [⟨symbols, positions, en, nac⟩]
         else [⟨symbols, positions, en, nac⟩]) := by
  intro coups
  induction coups with
  | nil =>
    intro fs fs' _ _ s1 s2 nac hmem
    simp at hmem
  | cons p rest ih =>
    intro fs fs' h hnd s1 s2 nac hmem
    obtain ⟨⟨t1, t2⟩, nv⟩ := p
    simp only [List.map_cons, List.nodup_cons] at hnd
    simp only [writeCouplings] at h
    split at h
    · exact absurd h (by simp)
    · rename_i en hen
      rcases List.mem_cons.mp hmem with hmem1 | hmem2
      · injection hmem1 with h1 h2
        injection h1 with h1a h1b
        subst h1a
        subst h1b
        subst h2
        refine ⟨en, hen, ?_⟩
        rw [writeCouplings_unchanged h ?_]
        · simp [writeFrame]
        · intro q hq hkey
          apply hnd.1
          have h12 : q.1.1 = s1 ∧ q.1.2 = s2 := by
            constructor <;> injection hkey
          have : q.1 = (s1, s2) := by
            rw [← h12.1, ← h12.2]
          rw [← this]
          exact List.mem_map_of_mem Prod.fst hq
      · obtain ⟨en', hen', hfs⟩ := ih h hnd.2 s1 s2 nac hmem2
        refine ⟨en', hen', ?_⟩
        rw [hfs]
        have hne : ¬((OutKey.nacvec s1 s2) = (OutKey.nacvec t1 t2)) := by
          intro hh
          apply hnd.1
          have hs1 : s1 = t1 := by injection hh
          have hs2 : s2 = t2 := by
            injection hh with hha hhb
          have : ((s1, s2) : ℤ × ℤ) = (t1, t2) := by rw [hs1, hs2]
          rw [← this]
          exact List.mem_map_of_mem Prod.fst hmem2
        simp only [writeFrame]
        rw [if_neg hne]

end SGDML

namespace SGDML

theorem aggregateOne_parts {res : QCState} {ap : Bool} {fs : FS} {sv : Option ℤ}
    {fs' : FS} {sv' : Option ℤ} (h : aggregateOne res ap fs sv = .ok (fs', sv')) :
    ∃ symbols positions fsg,
      res.symbols = some symbols ∧ res.geometry = some positions ∧
      writeGradients symbols positions res.energies ap fs sv res.gradients =
        .ok (fsg, sv') ∧
      writeCouplings symbols positions res.energies ap fsg sv' res.couplings = .ok fs' := by
  unfold aggregateOne at h
  split at h
  · exact absurd h (by simp)
  · rename_i symbols hsym
    split at h
    · exact absurd h (by simp)
    · rename_i positions hgeo
      split at h
      · exact absurd h (by simp)
      · rename_i fsg svg hwg
        split at h
        · exact absurd h (by simp)
        · rename_i fsc hwc
          injection h with h
          injection h with h1 h2
          subst h1
          subst h2
          exact ⟨symbols, positions, fsg, hsym, hgeo, hwg, hwc⟩

theorem aggregateOne_unchanged {res : QCState} {ap : Bool} {fs : FS} {sv : Option ℤ}
    {fs' : FS} {sv' : Option ℤ} {k : OutKey}
    (h : aggregateOne res ap fs sv = .ok (fs', sv'))
    (hg : ∀ p ∈ res.gradients, OutKey.forces p.1 ≠ k)
    (hc : ∀ p ∈ res.couplings, OutKey.nacvec p.1.1 p.1.2 ≠ k) : fs' k = fs k := by
  obtain ⟨symbols, positions, fsg, _, _, hwg, hwc⟩ := aggregateOne_parts h
  rw [writeCouplings_unchanged hwc hc, writeGradients_unchanged hwg hg]

theorem writeGradients_energies_some {symbols : List String}
    {positions : List (List ℚ)} {ensOpt : Option (Dict ℤ ℚ)} {ap : Bool}
    {p : ℤ × List (List ℚ)} {grads : Dict ℤ (List (List ℚ))} {fs : FS}
    {sv : Option ℤ} {fs' : FS} {sv' : Option ℤ}
    (h : writeGradients symbols positions ensOpt ap fs sv (p :: grads) = .ok (fs', sv')) :
    ∃ ens, ensOpt = some ens := by
  obtain ⟨state, gradient⟩ := p
  simp only [writeGradients] at h
  cases hens : ensOpt with
  | none => rw [hens] at h; exact absurd h (by simp)
  | some ens => exact ⟨ens, rfl⟩

theorem foldl_some_last : ∀ {α β : Type} (l : List (α × β)) (s : Option α), l ≠ [] →
    l.foldl (fun _ p => some p.1) s = (l.map Prod.fst).getLast? := by
  intro α β l
  induction l with
  | nil => intro s h; exact absurd rfl h
  | cons a t ih =>
    intro s _
    cases t with
    | nil => simp
    | cons b t2 =>
      rw [List.foldl_cons, ih (some a.1) (by simp)]
      simp only [List.map_cons]
      rw [List.getLast?_cons_cons]

end SGDML

namespace SGDML

/-- Folding `dinsert` over fresh, pairwise-distinct keys appends the pairs. -/
theorem foldl_dinsert_append : ∀ {data acc : Dict ℤ ℚ},
    (∀ p ∈ data, dlookup p.1 acc = none) → (data.map Prod.fst).Nodup →
    data.foldl (fun d p => dinsert p.1 p.2 d) acc = acc ++ data := by
  intro data
  induction data with
  | nil => intro acc _ _; simp
  | cons p rest ih =>
    intro acc hfresh hnd
    simp only [List.map_cons, List.nodup_cons] at hnd
    rw [List.foldl_cons, dinsert_of_lookup_none (hfresh p (by simp)) p.2]
    rw [ih ?_ hnd.2]
    · simp
    · intro q hq
      have hne : ¬(p.1 = q.1) := fun hh => hnd.1 (hh ▸ List.mem_map_of_mem Prod.fst hq)
      rw [dlookup_append_none (hfresh q (by simp [hq]))]
      simp [dlookup, hne]

theorem dlookup_map_of_mem {g : ℤ × ℚ → ℚ} : ∀ {data : List (ℤ × ℚ)} {p : ℤ × ℚ},
    (data.map Prod.fst).Nodup → p ∈ data →
    dlookup p.1 (data.map (fun q => (q.1, g q))) = some (g p) := by
  intro data
  induction data with
  | nil => intro p _ hmem; simp at hmem
  | cons q rest ih =>
    intro p hnd hmem
    simp only [List.map_cons, List.nodup_cons] at hnd
    rcases List.mem_cons.mp hmem with hmem1 | hmem2
    · subst hmem1
      simp [dlookup]
    · simp only [List.map_cons, dlookup]
      rw [if_neg ?_]
      · exact ih hnd.2 hmem2
      · intro hh
        exact hnd.1 (hh ▸ List.mem_map_of_mem Prod.fst hmem2)

theorem npTranspose_length (r0 r1 r2 : List ℚ) :
    (npTranspose [r0, r1, r2]).length = r0.length := by
  simp [npTranspose]

theorem npTranspose_rows (r0 r1 r2 : List ℚ) :
    ∀ row ∈ npTranspose [r0, r1, r2], row.length = 3 := by
  intro row hrow
  simp only [npTranspose, List.mem_map] at hrow
  obtain ⟨i, _, hrow⟩ := hrow
  rw [← hrow]
  rfl

theorem npTranspose_get (r0 r1 r2 : List ℚ) (j : ℕ) (hj : j < r0.length) :
    (npTranspose [r0, r1, r2])[j]? =
      some [r0.getD j 0, r1.getD j 0, r2.getD j 0] := by
  simp only [npTranspose]
  rw [List.getElem?_map, List.getElem?_range hj]
  rfl

end SGDML

namespace SGDML

/-! ### The claims -/

/-- C1 (counterexample): the claim says a report with a TDDFT
excitation-energies section but no total-energy line "must still return
without raising"; on this concrete report the parser raises `KeyError` at
`energies[0] = self['scf energy']`. -/
theorem claim_C1_counterexample :
    qchemParse ["          TDDFT Excitation Energies", " h", " h",
      " Excited state   1: excitation energy (eV) =    2",
      " ---------------------------------------------------"] = .error .keyError := by
  have h := @qparse_tddft_keyerror "          TDDFT Excitation Energies"
    ⟨by decide, by decide, by decide⟩ " h" " h"
    [" Excited state   1: excitation energy (eV) =    2"]
    [((1 : ℤ), (2 : ℚ))]
    (List.Forall₂.cons ⟨by decide, by decide, by decide, by decide⟩ List.Forall₂.nil)
    " ---------------------------------------------------" (by decide)
    [] initQC rfl
  simpa [qchemParse] using h

/-- C1 (amended): a report in which no marker fires parses to the initial
state (absent sections leave every map empty and `ok` false); `ok` stays
false whenever the success-marker line is absent; but a TDDFT
excitation-energies section with no preceding total-energy line raises
`KeyError` instead of returning. -/
theorem claim_C1 :
    (∀ ls : List String, (∀ l ∈ ls, InertLine l) → qchemParse ls = .ok initQC) ∧
    (∀ (lines : List String) (st' : QCState), qchemParse lines = .ok st' →
      (∀ l ∈ lines, hasSub "Thank you very much for using Q-Chem." l = false) →
      st'.ok = false) ∧
    (∀ (title hd1 hd2 : String) (rows : List String) (data : List (ℤ × ℚ))
      (sep : String) (rst : List String), TddftTitle title →
      List.Forall₂ (fun l d => ExcLine l d.1 d.2) rows data →
      hasSub "-----" sep = true →
      qchemParse (title :: hd1 :: hd2 :: (rows ++ sep :: rst)) = .error .keyError) := by
  refine ⟨?_, ?_, ?_⟩
  · intro ls hin
    exact qparse_all_inert hin initQC
  · intro lines st' h hnm
    obtain ⟨hok, _⟩ := qparse_invariants_aux lines.length le_rfl h
    rcases hok with hok | ⟨l, hl, hml⟩
    · exact hok
    · rw [hnm l hl] at hml
      exact absurd hml (by simp)
  · intro title hd1 hd2 rows data sep rst htitle hrows hsep
    exact qparse_tddft_keyerror htitle hd1 hd2 hrows hsep rst initQC rfl

/-- C1 (witness): the amended claim applied at concrete reports. -/
theorem claim_C1_witness :
    qchemParse ["a quiet line", "another quiet line"] = .ok initQC ∧
    qchemParse ["TDDFT Excitation Energies", "", "", "-----"] = .error .keyError := by
  constructor
  · exact claim_C1.1 ["a quiet line", "another quiet line"]
      (by
        intro l hl
        rcases List.mem_cons.mp hl with h | h
        · subst h
          exact ⟨by decide, by decide, by decide, by decide, by decide, by decide,
            by decide, by decide⟩
        · rcases List.mem_cons.mp h with h2 | h2
          · subst h2
            exact ⟨by decide, by decide, by decide, by decide, by decide, by decide,
              by decide, by decide⟩
          · simp at h2)
  · exact claim_C1.2.2 "TDDFT Excitation Energies" "" ""
      [] [] "-----" [] ⟨by decide, by decide, by decide⟩ List.Forall₂.nil (by decide)

end SGDML

namespace SGDML

/-- C2: the modelled `pool.imap` channel delivers, for any completion order
(any permutation of the submission indices), exactly the sequential map of
the per-geometry function over the input sequence, in submission order. -/
theorem claim_C2 {α β : Type} [Inhabited β] (f : α → β) (gs : List α)
    (order : List ℕ) (h : order.Perm (List.range gs.length)) :
    imapModel f gs order = gs.map f := by
  unfold imapModel
  rw [imapEmit_perm _ h]
  apply List.ext_getElem
  · simp
  · intro i h1 h2
    simp only [List.getElem_map, List.getElem_range]
    rw [List.getD_eq_getElem (gs.map f) default (by simpa using h2)]
    simp

/-- C2 (witness): three geometries whose jobs complete out of order
(1 before 0) are still delivered in submission order. -/
theorem claim_C2_witness :
    ([1, 0, 2] : List ℕ).Perm (List.range [10, 20, 30].length) ∧
    imapModel (fun n => n + 1) [10, 20, 30] [1, 0, 2] = [11, 21, 31] := by
  constructor
  · decide
  · rw [claim_C2 (fun n => n + 1) [10, 20, 30] [1, 0, 2] (by decide)]
    decide

/-- C3 (counterexample): a job whose engine call exits 0 but leaves no
readable report raises on `open`, so `shutil.rmtree` is never reached — the
scratch directory survives this exit path — and the exception aborts the
batch before the second geometry's result is consumed. -/
theorem claim_C3_counterexample :
    (run_calculator_map ⟨0, none⟩).scratchRemoved = false ∧
    consumeResults [run_calculator_map ⟨0, none⟩, run_calculator_map ⟨0, some []⟩] =
      .error .ioError := by
  constructor
  · rfl
  · rfl

/-- C3 (amended): the scratch directory is removed exactly when
`run_calculator` returns normally — in particular also after an engine
non-zero exit whose report still parses, and the batch then proceeds — but
when the report is missing or parsing raises, the exception propagates
before `shutil.rmtree`, the scratch directory is not removed, and the run
aborts at that geometry. -/
theorem claim_C3 :
    (∀ (o : EngineOutcome) (lines : List String) (st : QCState),
      o.report = some lines → qchemParse lines = .ok st →
      run_calculator_map o = ⟨.ok st, true⟩) ∧
    (∀ (o : EngineOutcome) (e : PyErr), (run_qchem o).1 = .error e →
      run_calculator_map o = ⟨.error e, false⟩) ∧
    (∀ (o : EngineOutcome) (cs : List CalcOutcome) (lines : List String) (st : QCState),
      o.exitStatus ≠ 0 → o.report = some lines → qchemParse lines = .ok st →
      consumeResults (run_calculator_map o :: cs) =
        (consumeResults cs).map (fun rs => st :: rs)) := by
  refine ⟨?_, ?_, ?_⟩
  · intro o lines st hrep hparse
    simp [run_calculator_map, run_qchem, hrep, hparse]
  · intro o e herr
    simp only [run_calculator_map, herr]
  · intro o cs lines st _ hrep hparse
    have h1 : run_calculator_map o = ⟨.ok st, true⟩ := by
      simp [run_calculator_map, run_qchem, hrep, hparse]
    rw [h1]
    simp only [consumeResults]

/-- C3 (witness): the amended claim at a concrete non-zero-exit outcome
whose report is an empty (hence marker-free) file. -/
theorem claim_C3_witness :
    run_calculator_map ⟨1, some ["nothing here"]⟩ = ⟨.ok initQC, true⟩ ∧
    consumeResults [run_calculator_map ⟨1, some ["nothing here"]⟩] =
      .ok [initQC] := by
  have hparse : qchemParse ["nothing here"] = .ok initQC :=
    qparse_all_inert
      (by
        intro l hl
        rcases List.mem_cons.mp hl with h | h
        · subst h
          exact ⟨by decide, by decide, by decide, by decide, by decide, by decide,
            by decide, by decide⟩
        · simp at h)
      initQC
  constructor
  · exact claim_C3.1 ⟨1, some ["nothing here"]⟩ ["nothing here"] initQC rfl hparse
  · rw [claim_C3.2.2 ⟨1, some ["nothing here"]⟩ [] ["nothing here"] initQC
      (by decide) rfl hparse]
    rfl

end SGDML

namespace SGDML

/-- C5 (counterexample): a report whose only parsed section is a geometry
block returns successfully but with no `energies (au)` key at all, so
`energies[0]` is not accessible even though a section was parsed. -/
theorem claim_C5_counterexample :
    (qchemParse ["  Standard Nuclear Orientation (Angstroms)", "h", "h", "h",
      " 1 C 1 2 3", " ------"]).map (fun st => st.energies) = .ok none := by
  have h := @qparse_geom_step "  Standard Nuclear Orientation (Angstroms)" (by decide)
    "h" "h" "h" [" 1 C 1 2 3"] [("C", [1, 2, 3])]
    (List.Forall₂.cons ⟨by decide, by decide, by decide⟩ List.Forall₂.nil)
    " ------" (by decide) [] initQC
  rw [qparse_nil] at h
  have h2 : qchemParse ["  Standard Nuclear Orientation (Angstroms)", "h", "h", "h",
      " 1 C 1 2 3", " ------"] = .ok
      { initQC with
        symbols := some ["C"],
        geometry := some ([[1, 2, 3]].map (fun row => row.map (fun x => x / bohr_to_angs))) } := by
    simpa [qchemParse, getset] using h
  rw [h2]
  rfl

/-- C5 (amended): whenever the parser returns and the `energies (au)` map
exists, it contains the ground-state key 0; but the map exists only when a
TDDFT section was parsed — a report whose only section is a geometry block
leaves `energies (au)` absent, so `energies[0]` raises `KeyError`. -/
theorem claim_C5 :
    (∀ (lines : List String) (st' : QCState) (ens : Dict ℤ ℚ),
      qchemParse lines = .ok st' → st'.energies = some ens →
      (dlookup 0 ens).isSome = true) ∧
    (∀ (title hd1 hd2 hd3 : String) (rows : List String)
      (data : List (String × List ℚ)) (sep : String),
      hasSub "Standard Nuclear Orientation (Angstroms)" title = true →
      List.Forall₂ (fun l d => GeomRow l d.1 d.2) rows data →
      hasSub "-----" sep = true →
      (qchemParse (title :: hd1 :: hd2 :: hd3 :: (rows ++ [sep]))).map
        (fun st => st.energies) = .ok none) := by
  constructor
  · intro lines st' ens h hens
    obtain ⟨_, hen⟩ := qparse_invariants_aux lines.length le_rfl h
    exact hen (by intro e he; exact absurd he (by simp [initQC])) ens hens
  · intro title hd1 hd2 hd3 rows data sep htitle hrows hsep
    have h := qparse_geom_step htitle hd1 hd2 hd3 hrows hsep [] initQC
    rw [qparse_nil] at h
    have h2 : title :: hd1 :: hd2 :: hd3 :: (rows ++ [sep]) =
        title :: hd1 :: hd2 :: hd3 :: (rows ++ sep :: []) := rfl
    rw [qchemParse, h2, h]
    rfl

/-- C5 (witness): the amended claim applied at a concrete TDDFT report (for
the key-0 part) and a concrete geometry-only report. -/
theorem claim_C5_witness :
    (∃ st ens, qchemParse ["Total energy in final basis set = = 3",
        "TDDFT Excitation Energies", "h", "h", "-----"] = .ok st ∧
      st.energies = some ens ∧ (dlookup 0 ens).isSome = true) ∧
    (qchemParse ["Standard Nuclear Orientation (Angstroms)", "h", "h", "h",
      "-----"]).map (fun st => st.energies) = .ok none := by
  constructor
  · have hscf := @qparse_scf_step "Total energy in final basis set = = 3" 3
      ⟨by decide, by decide, by decide⟩
      ["TDDFT Excitation Energies", "h", "h", "-----"] initQC
    have htd := @qparse_tddft_step "TDDFT Excitation Energies"
      ⟨by decide, by decide, by decide⟩ "h" "h" [] [] List.Forall₂.nil "-----"
      (by decide) [] { initQC with scfEnergy := some 3 } 3 rfl [(0, 3)] rfl
    rw [qparse_nil] at htd
    have hout : qchemParse ["Total energy in final basis set = = 3",
        "TDDFT Excitation Energies", "h", "h", "-----"] = .ok
        { initQC with
          scfEnergy := some 3,
          excEnergies := some [],
          oscStrengths := some [],
          energies := some [(0, 3)] } := by
      rw [qchemParse]
      have hh : qparse ["Total energy in final basis set = = 3",
          "TDDFT Excitation Energies", "h", "h", "-----"] initQC =
          qparse ["TDDFT Excitation Energies", "h", "h", "-----"]
            { initQC with scfEnergy := some 3 } := hscf
      rw [hh]
      exact htd
    exact ⟨_, [(0, 3)], hout, rfl, rfl⟩
  · exact claim_C5.2 "Standard Nuclear Orientation (Angstroms)" "h" "h" "h"
      [] [] "-----" (by decide) List.Forall₂.nil (by decide)

end SGDML

namespace SGDML

/-- C7: a report with a valid geometry block of M rows parses to M symbols
and an M-row geometry whose every coordinate is the source value divided by
the length-conversion constant; each row has 3 coordinates. -/
theorem claim_C7 (title hd1 hd2 hd3 : String)
    (htitle : hasSub "Standard Nuclear Orientation (Angstroms)" title = true)
    (rows : List String) (data : List (String × List ℚ))
    (hrows : List.Forall₂ (fun l d => GeomRow l d.1 d.2) rows data)
    (hlen : ∀ d ∈ data, d.2.length = 3)
    (sep : String) (hsep : hasSub "-----" sep = true) :
    ∃ st, qchemParse (title :: hd1 :: hd2 :: hd3 :: (rows ++ [sep])) = .ok st ∧
      st.symbols = some (data.map Prod.fst) ∧
      st.geometry =
        some ((data.map Prod.snd).map (fun row => row.map (fun x => x / bohr_to_angs))) ∧
      (data.map Prod.fst).length = rows.length ∧
      ((data.map Prod.snd).map (fun row => row.map (fun x => x / bohr_to_angs))).length =
        rows.length ∧
      ∀ row ∈ (data.map Prod.snd).map (fun row => row.map (fun x => x / bohr_to_angs)),
        row.length = 3 := by
  have h := qparse_geom_step htitle hd1 hd2 hd3 hrows hsep [] initQC
  rw [qparse_nil] at h
  have hlen2 := hrows.length_eq
  have hout : qchemParse (title :: hd1 :: hd2 :: hd3 :: (rows ++ [sep])) = .ok
      { initQC with
        symbols := some (data.map Prod.fst),
        geometry :=
          some ((data.map Prod.snd).map
            (fun row => row.map (fun x => x / bohr_to_angs))) } := by
    rw [qchemParse]
    have hsh : title :: hd1 :: hd2 :: hd3 :: (rows ++ [sep]) =
        title :: hd1 :: hd2 :: hd3 :: (rows ++ sep :: []) := rfl
    rw [hsh, h]
    rfl
  refine ⟨_, hout, rfl, rfl, ?_, ?_, ?_⟩
  · simp [hlen2]
  · simp [hlen2]
  · intro row hrow
    simp only [List.mem_map] at hrow
    obtain ⟨src, hsrc, hdef⟩ := hrow
    obtain ⟨d, hd, hdsnd⟩ := hsrc
    rw [← hdef, List.length_map, ← hdsnd]
    exact hlen d hd

/-- C7 (witness): a concrete two-atom geometry block. -/
theorem claim_C7_witness :
    ∃ st, qchemParse ["  Standard Nuclear Orientation (Angstroms)", "h1", "h2", "h3",
      " 1 C 1 2 3", " 2 H 4 5 6", " ------"] = .ok st ∧
      st.symbols = some ["C", "H"] ∧
      st.geometry =
        some (([[(1 : ℚ), 2, 3], [4, 5, 6]] :
          List (List ℚ)).map (fun row => row.map (fun x => x / bohr_to_angs))) := by
  obtain ⟨st, h1, h2, h3, _⟩ := claim_C7 "  Standard Nuclear Orientation (Angstroms)"
    "h1" "h2" "h3" (by decide) [" 1 C 1 2 3", " 2 H 4 5 6"]
    [("C", [1, 2, 3]), ("H", [4, 5, 6])]
    (List.Forall₂.cons ⟨by decide, by decide, by decide⟩
      (List.Forall₂.cons ⟨by decide, by decide, by decide⟩ List.Forall₂.nil))
    (by
      intro d hd
      rcases List.mem_cons.mp hd with h | h
      · subst h; rfl
      · rcases List.mem_cons.mp h with h2 | h2
        · subst h2; rfl
        · simp at h2)
    " ------" (by decide)
  exact ⟨st, h1, h2, h3⟩

end SGDML

namespace SGDML

/-- C6: a report with a total-energy line followed by a TDDFT block listing
the N excited states 1..N parses to an energies map with exactly the N+1
keys 0..N, `energies[0]` the SCF energy, and
`energies[k] = energies[0] + excitation_energy[k] / hartree_to_ev`. -/
theorem claim_C6 (scfline title hd1 hd2 : String) (e0 : ℚ) (rows : List String)
    (data : List (ℤ × ℚ)) (sep : String) (N : ℕ)
    (hscf : ScfLine scfline e0) (htitle : TddftTitle title)
    (hrows : List.Forall₂ (fun l d => ExcLine l d.1 d.2) rows data)
    (hsep : hasSub "-----" sep = true)
    (hkeys : data.map Prod.fst = (List.range N).map (fun i => Int.ofNat (i + 1))) :
    ∃ st ens, qchemParse (scfline :: title :: hd1 :: hd2 :: (rows ++ [sep])) = .ok st ∧
      st.energies = some ens ∧
      ens.map Prod.fst = (List.range (N + 1)).map Int.ofNat ∧
      dlookup 0 ens = some e0 ∧
      ∀ p ∈ data, dlookup p.1 ens = some (e0 + p.2 / hartree_to_ev) := by
  have hnodup : (data.map Prod.fst).Nodup := by
    rw [hkeys]
    refine List.Nodup.map ?_ (List.nodup_range N)
    intro a b hab
    have hab2 : Int.ofNat (a + 1) = Int.ofNat (b + 1) := hab
    have hab3 : a + 1 = b + 1 := Int.ofNat.inj hab2
    omega
  have hne0 : ∀ p ∈ data, p.1 ≠ 0 := by
    intro p hp
    have hmem : p.1 ∈ data.map Prod.fst := List.mem_map_of_mem Prod.fst hp
    rw [hkeys] at hmem
    obtain ⟨i, _, hi⟩ := List.mem_map.mp hmem
    intro hz
    rw [hz] at hi
    have : i + 1 = 0 := Int.ofNat.inj hi
    omega
  have h1 := qparse_scf_step hscf (title :: hd1 :: hd2 :: (rows ++ sep :: [])) initQC
  have h1' : qparse (scfline :: title :: hd1 :: hd2 :: (rows ++ sep :: [])) initQC =
      qparse (title :: hd1 :: hd2 :: (rows ++ sep :: []))
        { initQC with scfEnergy := some e0 } := h1
  have hfold : data.foldl (fun d p => dinsert p.1 p.2 d)
      (getset (QCState.excEnergies { initQC with scfEnergy := some e0 }) []) = data := by
    show data.foldl (fun d p => dinsert p.1 p.2 d) ([] : Dict ℤ ℚ) = data
    simpa using @foldl_dinsert_append data [] (fun p _ => rfl) hnodup
  have hadd : addExc
      (dinsert 0 e0 (getset (QCState.energies { initQC with scfEnergy := some e0 }) []))
      (data.foldl (fun d p => dinsert p.1 p.2 d)
        (getset (QCState.excEnergies { initQC with scfEnergy := some e0 }) [])) =
      .ok ((0, e0) :: data.map (fun p => (p.1, e0 + p.2 / hartree_to_ev))) := by
    rw [hfold]
    show addExc [(0, e0)] data = _
    refine addExc_gen ?_ ?_ hnodup
    · simp [dlookup]
    · intro p hp
      refine ⟨hne0 p hp, ?_⟩
      have hne : ¬((0 : ℤ) = p.1) := fun hh => hne0 p hp hh.symm
      simp [dlookup, hne]
  have h2 := qparse_tddft_step htitle hd1 hd2 hrows hsep []
    { initQC with scfEnergy := some e0 }
    (show QCState.scfEnergy { initQC with scfEnergy := some e0 } = some e0 from rfl)
    hadd
  rw [qparse_nil] at h2
  have hout : qchemParse (scfline :: title :: hd1 :: hd2 :: (rows ++ [sep])) = .ok
      { initQC with
        scfEnergy := some e0,
        excEnergies := some data,
        oscStrengths := some [],
        stateVar := data.foldl (fun _ p => some p.1) none,
        energies :=
          some ((0, e0) :: data.map (fun p => (p.1, e0 + p.2 / hartree_to_ev))) } := by
    rw [qchemParse]
    rw [show (scfline :: title :: hd1 :: hd2 :: (rows ++ [sep])) =
      scfline :: (title :: hd1 :: hd2 :: (rows ++ sep :: [])) from rfl]
    rw [h1', h2, hfold]
    rfl
  refine ⟨_, (0, e0) :: data.map (fun p => (p.1, e0 + p.2 / hartree_to_ev)),
    hout, rfl, ?_, ?_, ?_⟩
  · rw [List.map_cons, List.map_map]
    have hcomp : (Prod.fst ∘ fun p : ℤ × ℚ => (p.1, e0 + p.2 / hartree_to_ev)) =
        Prod.fst := rfl
    rw [hcomp, hkeys, List.range_succ_eq_map, List.map_cons, List.map_map]
    rfl
  · simp [dlookup]
  · intro p hp
    show dlookup p.1 ((0, e0) :: data.map (fun q => (q.1, e0 + q.2 / hartree_to_ev))) = _
    have hne : ¬((0 : ℤ) = p.1) := fun hh => hne0 p hp hh.symm
    rw [dlookup, if_neg hne]
    exact dlookup_map_of_mem hnodup hp

end SGDML

namespace SGDML

/-- C6 (witness): a concrete report with two excited states. -/
theorem claim_C6_witness :
    ∃ st ens, qchemParse ["Total energy in final basis set = = 3",
        "          TDDFT Excitation Energies", "h1", "h2",
        " Excited state   1: excitation energy (eV) =    2",
        " Excited state   2: excitation energy (eV) =    4",
        " ---------------------------------------------------"] = .ok st ∧
      st.energies = some ens ∧
      ens.map Prod.fst = (List.range 3).map Int.ofNat ∧
      dlookup 0 ens = some 3 ∧
      ∀ p ∈ [((1 : ℤ), (2 : ℚ)), (2, 4)],
        dlookup p.1 ens = some (3 + p.2 / hartree_to_ev) := by
  have h := claim_C6 "Total energy in final basis set = = 3"
    "          TDDFT Excitation Energies" "h1" "h2" 3
    [" Excited state   1: excitation energy (eV) =    2",
     " Excited state   2: excitation energy (eV) =    4"]
    [((1 : ℤ), (2 : ℚ)), (2, 4)]
    " ---------------------------------------------------" 2
    ⟨by decide, by decide, by decide⟩ ⟨by decide, by decide, by decide⟩
    (List.Forall₂.cons ⟨by decide, by decide, by decide, by decide⟩
      (List.Forall₂.cons ⟨by decide, by decide, by decide, by decide⟩ List.Forall₂.nil))
    (by decide) (by decide)
  exact h

end SGDML

namespace SGDML

/-- C8: a ground-state gradient block of C column-chunks (header row of
atom indices plus 3 component rows of width ≤ 6 each) parses to
`gradients[0]` as the concatenation of the transposed chunks: one row of 3
components per atom, in order, with entry (j, c) of a chunk equal to the
value printed in component row c at column j. -/
theorem claim_C8 (title : String) (htitle : GradScfTitle title)
    (chunks : List (List String × (List ℚ × List ℚ × List ℚ)))
    (hch : ∀ c ∈ chunks, GradChunkL "Max gradient" c.1 c.2.1 c.2.2.1 c.2.2.2)
    (hrect : ∀ c ∈ chunks, c.2.2.1.length = c.2.1.length ∧ c.2.2.2.length = c.2.1.length)
    (hwidth : ∀ c ∈ chunks, c.2.1.length ≤ 6)
    (stopline : String) (hstop : hasSub "Max gradient" stopline = true) :
    ∃ st grad,
      qchemParse (title :: ((chunks.map Prod.fst).flatten ++ [stopline])) = .ok st ∧
      st.gradients = [(0, grad)] ∧
      grad = (chunks.map (fun c => npTranspose [c.2.1, c.2.2.1, c.2.2.2])).flatten ∧
      grad.length = (chunks.map (fun c => c.2.1.length)).sum ∧
      (∀ row ∈ grad, row.length = 3) ∧
      (∀ c ∈ chunks, ∀ j : ℕ, j < c.2.1.length →
        (npTranspose [c.2.1, c.2.2.1, c.2.2.2])[j]? =
          some [c.2.1.getD j 0, c.2.2.1.getD j 0, c.2.2.2.getD j 0]) := by
  have h := qparse_gradscf_step htitle hch hstop [] initQC
  rw [qparse_nil] at h
  have hout : qchemParse (title :: ((chunks.map Prod.fst).flatten ++ [stopline])) = .ok
      { initQC with
        gradients :=
          [(0, (chunks.map (fun c => npTranspose [c.2.1, c.2.2.1, c.2.2.2])).flatten)] } := by
    rw [qchemParse]
    rw [show (title :: ((chunks.map Prod.fst).flatten ++ [stopline])) =
      title :: ((chunks.map Prod.fst).flatten ++ stopline :: []) from rfl]
    rw [h]
    rfl
  refine ⟨_, (chunks.map (fun c => npTranspose [c.2.1, c.2.2.1, c.2.2.2])).flatten,
    hout, rfl, rfl, ?_, ?_, ?_⟩
  · rw [List.length_flatten, List.map_map]
    have hfn : (List.length ∘ fun c : List String × List ℚ × List ℚ × List ℚ =>
        npTranspose [c.2.1, c.2.2.1, c.2.2.2]) = fun c => c.2.1.length := by
      funext c
      exact npTranspose_length c.2.1 c.2.2.1 c.2.2.2
    rw [hfn]
  · intro row hrow
    obtain ⟨l, hl, hrl⟩ := List.mem_flatten.mp hrow
    obtain ⟨c, _, hc⟩ := List.mem_map.mp hl
    rw [← hc] at hrl
    exact npTranspose_rows c.2.1 c.2.2.1 c.2.2.2 row hrl
  · intro c _ j hj
    exact npTranspose_get c.2.1 c.2.2.1 c.2.2.2 j hj

/-- C8 (witness): a 2-atom gradient in one chunk of width 2. -/
theorem claim_C8_witness :
    ∃ st grad, qchemParse [" Gradient of SCF Energy",
      "   1  2", " 1  1 2", " 2  3 4", " 3  5 6",
      " Max gradient component ..."] = .ok st ∧
      st.gradients = [(0, grad)] ∧
      grad = npTranspose [[(1 : ℚ), 2], [3, 4], [5, 6]] ∧
      grad.length = 2 ∧ (∀ row ∈ grad, row.length = 3) := by
  obtain ⟨st, grad, h1, h2, h3, h4, h5, _⟩ := claim_C8 " Gradient of SCF Energy"
    ⟨by decide, by decide, by decide, by decide, by decide⟩
    [(["   1  2", " 1  1 2", " 2  3 4", " 3  5 6"], ([1, 2], [3, 4], [5, 6]))]
    (by
      intro c hc
      rcases List.mem_cons.mp hc with h | h
      · subst h
        exact ⟨"   1  2", " 1  1 2", " 2  3 4", " 3  5 6", rfl,
          by decide, by decide, by decide, by decide, by decide⟩
      · simp at h)
    (by
      intro c hc
      rcases List.mem_cons.mp hc with h | h
      · subst h
        exact ⟨rfl, rfl⟩
      · simp at h)
    (by
      intro c hc
      rcases List.mem_cons.mp hc with h | h
      · subst h
        decide
      · simp at h)
    " Max gradient component ..." (by decide)
  refine ⟨st, grad, ?_, h2, ?_, ?_, h5⟩
  · simpa using h1
  · simpa using h3
  · simpa using h4

end SGDML

namespace SGDML

/-- C9: first occurrence wins for the scalar records (`symbols`,
`geometry (au)`, `scf energy`) because `_getset` keeps an existing value,
while `gradients (au)` entries are overwritten by later occurrences of the
same key: with two geometry blocks, two total-energy lines and two
ground-state gradient blocks, the parse keeps the first geometry and first
SCF energy but the second gradient. -/
theorem claim_C9
    (t1 hd11 hd12 hd13 : String)
    (ht1 : hasSub "Standard Nuclear Orientation (Angstroms)" t1 = true)
    (rows1 : List String) (data1 : List (String × List ℚ))
    (hrows1 : List.Forall₂ (fun l d => GeomRow l d.1 d.2) rows1 data1)
    (sep1 : String) (hsep1 : hasSub "-----" sep1 = true)
    (t2 hd21 hd22 hd23 : String)
    (ht2 : hasSub "Standard Nuclear Orientation (Angstroms)" t2 = true)
    (rows2 : List String) (data2 : List (String × List ℚ))
    (hrows2 : List.Forall₂ (fun l d => GeomRow l d.1 d.2) rows2 data2)
    (sep2 : String) (hsep2 : hasSub "-----" sep2 = true)
    (scf1 : String) (v1 : ℚ) (hscf1 : ScfLine scf1 v1)
    (scf2 : String) (v2 : ℚ) (hscf2 : ScfLine scf2 v2)
    (g1 : String) (hg1 : GradScfTitle g1)
    (chunks1 : List (List String × (List ℚ × List ℚ × List ℚ)))
    (hch1 : ∀ c ∈ chunks1, GradChunkL "Max gradient" c.1 c.2.1 c.2.2.1 c.2.2.2)
    (stop1 : String) (hstop1 : hasSub "Max gradient" stop1 = true)
    (g2 : String) (hg2 : GradScfTitle g2)
    (chunks2 : List (List String × (List ℚ × List ℚ × List ℚ)))
    (hch2 : ∀ c ∈ chunks2, GradChunkL "Max gradient" c.1 c.2.1 c.2.2.1 c.2.2.2)
    (stop2 : String) (hstop2 : hasSub "Max gradient" stop2 = true) :
    ∃ st, qchemParse (t1 :: hd11 :: hd12 :: hd13 :: (rows1 ++ sep1 ::
        (t2 :: hd21 :: hd22 :: hd23 :: (rows2 ++ sep2 ::
        (scf1 :: scf2 :: (g1 :: ((chunks1.map Prod.fst).flatten ++ stop1 ::
        (g2 :: ((chunks2.map Prod.fst).flatten ++ stop2 :: []))))))))) = .ok st ∧
      st.symbols = some (data1.map Prod.fst) ∧
      st.geometry =
        some ((data1.map Prod.snd).map (fun row => row.map (fun x => x / bohr_to_angs))) ∧
      st.scfEnergy = some v1 ∧
      st.gradients =
        [(0, (chunks2.map (fun c => npTranspose [c.2.1, c.2.2.1, c.2.2.2])).flatten)] := by
  have hout : qchemParse (t1 :: hd11 :: hd12 :: hd13 :: (rows1 ++ sep1 ::
      (t2 :: hd21 :: hd22 :: hd23 :: (rows2 ++ sep2 ::
      (scf1 :: scf2 :: (g1 :: ((chunks1.map Prod.fst).flatten ++ stop1 ::
      (g2 :: ((chunks2.map Prod.fst).flatten ++ stop2 :: []))))))))) = .ok
      { initQC with
        symbols := some (data1.map Prod.fst),
        geometry :=
          some ((data1.map Prod.snd).map
            (fun row => row.map (fun x => x / bohr_to_angs))),
        scfEnergy := some v1,
        gradients :=
          [(0, (chunks2.map (fun c => npTranspose [c.2.1, c.2.2.1, c.2.2.2])).flatten)] } := by
    rw [qchemParse]
    rw [qparse_geom_step ht1 hd11 hd12 hd13 hrows1 hsep1]
    rw [qparse_geom_step ht2 hd21 hd22 hd23 hrows2 hsep2]
    rw [qparse_scf_step hscf1]
    rw [qparse_scf_step hscf2]
    rw [qparse_gradscf_step hg1 hch1 hstop1]
    rw [qparse_gradscf_step hg2 hch2 hstop2]
    rw [qparse_nil]
    rfl
  exact ⟨_, hout, rfl, rfl, rfl, rfl⟩

/-- C9 (witness): two one-atom geometry blocks (C then N), two total-energy
lines (3 then 7) and two one-chunk gradient blocks: the first geometry and
energy survive, the second gradient overwrites the first. -/
theorem claim_C9_witness :
    ∃ st, qchemParse ["Standard Nuclear Orientation (Angstroms)", "h", "h", "h",
      "1 C 1 2 3", "------",
      "Standard Nuclear Orientation (Angstroms)", "h", "h", "h",
      "1 N 4 5 6", "------",
      "Total energy in final basis set = = 3",
      "Total energy in final basis set = = 7",
      "Gradient of SCF Energy", "1", "1 1", "2 2", "3 3", "Max gradient",
      "Gradient of SCF Energy", "1", "1 4", "2 5", "3 6", "Max gradient"] = .ok st ∧
      st.symbols = some ["C"] ∧
      st.geometry = some ([[(1 : ℚ), 2, 3]].map (fun row => row.map (fun x => x / bohr_to_angs))) ∧
      st.scfEnergy = some 3 ∧
      st.gradients = [(0, npTranspose [[(4 : ℚ)], [5], [6]])] := by
  obtain ⟨st, h1, h2, h3, h4, h5⟩ := claim_C9
    "Standard Nuclear Orientation (Angstroms)" "h" "h" "h" (by decide)
    ["1 C 1 2 3"] [("C", [1, 2, 3])]
    (List.Forall₂.cons ⟨by decide, by decide, by decide⟩ List.Forall₂.nil)
    "------" (by decide)
    "Standard Nuclear Orientation (Angstroms)" "h" "h" "h" (by decide)
    ["1 N 4 5 6"] [("N", [4, 5, 6])]
    (List.Forall₂.cons ⟨by decide, by decide, by decide⟩ List.Forall₂.nil)
    "------" (by decide)
    "Total energy in final basis set = = 3" 3 ⟨by decide, by decide, by decide⟩
    "Total energy in final basis set = = 7" 7 ⟨by decide, by decide, by decide⟩
    "Gradient of SCF Energy" ⟨by decide, by decide, by decide, by decide, by decide⟩
    [(["1", "1 1", "2 2", "3 3"], ([1], [2], [3]))]
    (by
      intro c hc
      rcases List.mem_cons.mp hc with h | h
      · subst h
        exact ⟨"1", "1 1", "2 2", "3 3", rfl, by decide, by decide, by decide,
          by decide, by decide⟩
      · simp at h)
    "Max gradient" (by decide)
    "Gradient of SCF Energy" ⟨by decide, by decide, by decide, by decide, by decide⟩
    [(["1", "1 4", "2 5", "3 6"], ([4], [5], [6]))]
    (by
      intro c hc
      rcases List.mem_cons.mp hc with h | h
      · subst h
        exact ⟨"1", "1 4", "2 5", "3 6", rfl, by decide, by decide, by decide,
          by decide, by decide⟩
      · simp at h)
    "Max gradient" (by decide)
  refine ⟨st, ?_, h2, h3, h4, ?_⟩
  · simpa using h1
  · simpa using h5

end SGDML

namespace SGDML

/-- C4 (counterexample): the `append` flag is global to the run, not
per-key.  A key (state 1) whose first record appears at the second geometry
is opened in append mode: pre-existing stale content of `forces_1.xyz`
survives in front of the new frame, where the claim demands truncation. -/
theorem claim_C4_counterexample :
    (aggregate
      (fun k => if k = OutKey.forces 1 then [⟨["X"], [[0]], 0, [[0]]⟩] else [])
      [{ initQC with
          symbols := some ["H"],
          geometry := some [[1]],
          energies := some [(0, 3)],
          gradients := [(0, [[1]])] },
       { initQC with
          symbols := some ["H"],
          geometry := some [[2]],
          energies := some [(0, 5), (1, 6)],
          gradients := [(0, [[1]]), (1, [[2]])] }]).map (fun f => f (.forces 1)) =
      .ok [⟨["X"], [[0]], 0, [[0]]⟩, ⟨["H"], [[2]], 6, [[-2]]⟩] := by
  rfl

end SGDML

namespace SGDML

/-- C4 (amended): the `append` flag is per-run, not per-key.  Writes during
the first geometry truncate/create their file; every write from the second
geometry on appends — including the first write for a key that only appears
then, whose pre-existing file content is therefore preserved, not
truncated.  (Keys written at the first geometry only are truncated there.) -/
theorem claim_C4 :
    (∀ (fs : FS) (res1 res2 : QCState) (fs' : FS) (s : ℤ) (G : List (List ℚ)),
      aggregate fs [res1, res2] = .ok fs' →
      (res2.gradients.map Prod.fst).Nodup →
      (∀ p ∈ res1.gradients, p.1 ≠ s) →
      (s, G) ∈ res2.gradients →
      ∃ symbols positions ens en, res2.symbols = some symbols ∧
        res2.geometry = some positions ∧ res2.energies = some ens ∧
        dlookup s ens = some en ∧
        fs' (.forces s) = fs (.forces s) ++ [⟨symbols, positions, en, negMat G⟩]) ∧
    (∀ (fs : FS) (res1 res2 : QCState) (fs' : FS) (s : ℤ) (G : List (List ℚ)),
      aggregate fs [res1, res2] = .ok fs' →
      (res1.gradients.map Prod.fst).Nodup →
      (s, G) ∈ res1.gradients →
      (∀ p ∈ res2.gradients, p.1 ≠ s) →
      ∃ symbols positions ens en, res1.symbols = some symbols ∧
        res1.geometry = some positions ∧ res1.energies = some ens ∧
        dlookup s ens = some en ∧
        fs' (.forces s) = [⟨symbols, positions, en, negMat G⟩]) := by
  have hsplit : ∀ (fs : FS) (res1 res2 : QCState) (fs' : FS),
      aggregate fs [res1, res2] = .ok fs' →
      ∃ fs1 sv1 sv2, aggregateOne res1 false fs none = .ok (fs1, sv1) ∧
        aggregateOne res2 true fs1 sv1 = .ok (fs', sv2) := by
    intro fs res1 res2 fs' h
    rw [aggregate] at h
    simp only [aggregateFrom] at h
    split at h
    · exact absurd h (by simp)
    · rename_i fs1 sv1 h1
      split at h
      · exact absurd h (by simp)
      · rename_i fs2 sv2 h2
        injection h with h
        subst h
        exact ⟨fs1, sv1, sv2, h1, h2⟩
  constructor
  · intro fs res1 res2 fs' s G h hnd hnot1 hmem
    obtain ⟨fs1, sv1, sv2, h1, h2⟩ := hsplit fs res1 res2 fs' h
    obtain ⟨symbols, positions, fsg, hsym, hgeo, hwg, hwc⟩ := aggregateOne_parts h2
    have hens : ∃ ens, res2.energies = some ens := by
      cases hg : res2.gradients with
      | nil => rw [hg] at hmem; simp at hmem
      | cons p rest =>
        rw [hg] at hwg
        exact writeGradients_energies_some hwg
    obtain ⟨ens, hens⟩ := hens
    rw [hens] at hwg
    obtain ⟨en, hen, hfsg⟩ := writeGradients_spec hwg hnd s G hmem
    refine ⟨symbols, positions, ens, en, hsym, hgeo, hens, hen, ?_⟩
    have hcoup : fs' (.forces s) = fsg (.forces s) :=
      writeCouplings_unchanged hwc (fun p _ hh => OutKey.noConfusion hh)
    have hfs1 : fs1 (.forces s) = fs (.forces s) :=
      aggregateOne_unchanged h1
        (fun p hp hh => hnot1 p hp (by injection hh))
        (fun p _ hh => OutKey.noConfusion hh)
    rw [hcoup, hfsg, if_pos rfl, hfs1]
  · intro fs res1 res2 fs' s G h hnd hmem hnot2
    obtain ⟨fs1, sv1, sv2, h1, h2⟩ := hsplit fs res1 res2 fs' h
    obtain ⟨symbols, positions, fsg, hsym, hgeo, hwg, hwc⟩ := aggregateOne_parts h1
    have hens : ∃ ens, res1.energies = some ens := by
      cases hg : res1.gradients with
      | nil => rw [hg] at hmem; simp at hmem
      | cons p rest =>
        rw [hg] at hwg
        exact writeGradients_energies_some hwg
    obtain ⟨ens, hens⟩ := hens
    rw [hens] at hwg
    obtain ⟨en, hen, hfsg⟩ := writeGradients_spec hwg hnd s G hmem
    refine ⟨symbols, positions, ens, en, hsym, hgeo, hens, hen, ?_⟩
    have hcoup : fs1 (.forces s) = fsg (.forces s) :=
      writeCouplings_unchanged hwc (fun p _ hh => OutKey.noConfusion hh)
    have hfs2 : fs' (.forces s) = fs1 (.forces s) :=
      aggregateOne_unchanged h2
        (fun p hp hh => hnot2 p hp (by injection hh))
        (fun p _ hh => OutKey.noConfusion hh)
    rw [hfs2, hcoup, hfsg]
    rfl

/-- Stale pre-run content of `forces_1.xyz` for the C4 scenario. -/
def c4fs : FS :=
  fun k => if k = OutKey.forces 1 then [⟨["X"], [[0]], 0, [[0]]⟩] else []

/-- First geometry of the C4 scenario: only a ground-state gradient. -/
def c4res1 : QCState :=
  { initQC with
    symbols := some ["H"],
    geometry := some [[1]],
    energies := some [(0, 3)],
    gradients := [(0, [[1]])] }

/-- Second geometry of the C4 scenario: gradients for states 0 and 1. -/
def c4res2 : QCState :=
  { initQC with
    symbols := some ["H"],
    geometry := some [[2]],
    energies := some [(0, 5), (1, 6)],
    gradients := [(0, [[1]]), (1, [[2]])] }

/-- C4 (witness): the amended claim applied to a concrete two-geometry run
in which the state-1 file first appears at the second geometry. -/
theorem claim_C4_witness :
    ∃ fs' symbols positions ens en,
      aggregate c4fs [c4res1, c4res2] = .ok fs' ∧
      c4res2.symbols = some symbols ∧ c4res2.geometry = some positions ∧
      c4res2.energies = some ens ∧ dlookup 1 ens = some en ∧
      fs' (.forces 1) = c4fs (.forces 1) ++ [⟨symbols, positions, en, negMat [[2]]⟩] := by
  obtain ⟨fs', hfs⟩ : ∃ fs', aggregate c4fs [c4res1, c4res2] = .ok fs' := ⟨_, rfl⟩
  obtain ⟨symbols, positions, ens, en, h1, h2, h3, h4, h5⟩ :=
    claim_C4.1 c4fs c4res1 c4res2 fs' 1 [[2]] hfs (by decide)
      (by
        intro p hp
        rcases List.mem_cons.mp hp with h | h
        · subst h
          decide
        · simp [c4res1, initQC] at h)
      (by decide)
  exact ⟨fs', symbols, positions, ens, en, hfs, h1, h2, h3, h4, h5⟩

end SGDML

namespace SGDML

theorem writeCouplings_energies_some {symbols : List String}
    {positions : List (List ℚ)} {ensOpt : Option (Dict ℤ ℚ)} {ap : Bool}
    {p : (ℤ × ℤ) × List (List ℚ)} {coups : Dict (ℤ × ℤ) (List (List ℚ))}
    {fs : FS} {sv : Option ℤ} {fs' : FS}
    (h : writeCouplings symbols positions ensOpt ap fs sv (p :: coups) = .ok fs') :
    ∃ ens, ensOpt = some ens := by
  obtain ⟨⟨s1, s2⟩, nac⟩ := p
  simp only [writeCouplings] at h
  cases hens : ensOpt with
  | none => rw [hens] at h; exact absurd h (by simp)
  | some ens => exact ⟨ens, rfl⟩

theorem writeCouplings_sv_some {symbols : List String}
    {positions : List (List ℚ)} {ens : Dict ℤ ℚ} {ap : Bool}
    {p : (ℤ × ℤ) × List (List ℚ)} {coups : Dict (ℤ × ℤ) (List (List ℚ))}
    {fs : FS} {sv : Option ℤ} {fs' : FS}
    (h : writeCouplings symbols positions (some ens) ap fs sv (p :: coups) = .ok fs') :
    ∃ state, sv = some state := by
  obtain ⟨⟨s1, s2⟩, nac⟩ := p
  simp only [writeCouplings] at h
  cases hsv : sv with
  | none => rw [hsv] at h; exact absurd h (by simp)
  | some state => exact ⟨state, rfl⟩

/-- First geometry of the C10 scenario: a ground-state gradient binds the
Python loop variable `state`. -/
def c10res1 : QCState :=
  { initQC with
    symbols := some ["H"],
    geometry := some [[1]],
    energies := some [(0, 3)],
    gradients := [(0, [[1]])] }

/-- Second geometry of the C10 scenario: a coupling but no gradient at all. -/
def c10res2 : QCState :=
  { initQC with
    symbols := some ["H"],
    geometry := some [[2]],
    energies := some [(0, 5)],
    couplings := [((1, 2), [[7]])] }

/-- C10 (counterexample): the claim predicts an unbound-variable abort
whenever a result has couplings but no gradients; but when an earlier
geometry already bound the loop variable `state`, the run continues and the
coupling record is written with the stale state's energy of the current
result (`energies[0]` here, from geometry 1's `state = 0`). -/
theorem claim_C10_counterexample :
    (aggregate (fun _ => []) [c10res1, c10res2]).map (fun f => f (.nacvec 1 2)) =
      .ok [⟨["H"], [[2]], 5, [[7]]⟩] := by
  rfl

end SGDML

namespace SGDML

/-- C10 (amended): the `Energy` field of every coupling record is the
energy of the state iterated last in that result's gradients map whenever
that map is non-empty; when it is empty, the `NameError` abort happens only
if no earlier geometry of the run bound the loop variable `state` (for
example at the first geometry) — otherwise the stale state of an earlier
geometry is used. -/
theorem claim_C10 :
    (∀ (res : QCState) (ap : Bool) (fs : FS) (sv0 : Option ℤ) (fs' : FS)
      (sv' : Option ℤ) (s1 s2 : ℤ) (nac : List (List ℚ)),
      aggregateOne res ap fs sv0 = .ok (fs', sv') →
      res.gradients ≠ [] →
      (res.couplings.map Prod.fst).Nodup →
      ((s1, s2), nac) ∈ res.couplings →
      ∃ sL ens en symbols positions,
        (res.gradients.map Prod.fst).getLast? = some sL ∧
        sv' = some sL ∧
        res.energies = some ens ∧ dlookup sL ens = some en ∧
        res.symbols = some symbols ∧ res.geometry = some positions ∧
        fs' (.nacvec s1 s2) =
          (if ap then fs (.nacvec s1 s2) ++ [⟨symbols, positions, en, nac⟩]
           else [⟨symbols, positions, en, nac⟩])) ∧
    (∀ (res : QCState) (rest : List QCState) (fs : FS) (ens : Dict ℤ ℚ)
      (symbols : List String) (positions : List (List ℚ)) (a b : ℤ)
      (nv : List (List ℚ)) (ps : Dict (ℤ × ℤ) (List (List ℚ))),
      res.symbols = some symbols → res.geometry = some positions →
      res.energies = some ens → res.gradients = [] →
      res.couplings = ((a, b), nv) :: ps →
      aggregate fs (res :: rest) = .error .nameError) := by
  constructor
  · intro res ap fs sv0 fs' sv' s1 s2 nac h hg hnd hmem
    obtain ⟨symbols, positions, fsg, hsym, hgeo, hwg, hwc⟩ := aggregateOne_parts h
    have hcoupcons : ∃ p coups, res.couplings = p :: coups := by
      cases hc : res.couplings with
      | nil => rw [hc] at hmem; simp at hmem
      | cons p coups => exact ⟨p, coups, rfl⟩
    obtain ⟨p, coups, hcoup⟩ := hcoupcons
    have hens : ∃ ens, res.energies = some ens := by
      rw [hcoup] at hwc
      exact writeCouplings_energies_some hwc
    obtain ⟨ens, hens⟩ := hens
    rw [hens] at hwg hwc
    have hsv : sv' = (res.gradients.map Prod.fst).getLast? := by
      rw [writeGradients_sv hwg]
      exact foldl_some_last res.gradients sv0 hg
    have hsL : ∃ sL, (res.gradients.map Prod.fst).getLast? = some sL := by
      have hne : res.gradients.map Prod.fst ≠ [] := by
        intro hh
        exact hg (List.map_eq_nil_iff.mp hh)
      exact Option.isSome_iff_exists.mp (List.getLast?_isSome.mpr hne)
    obtain ⟨sL, hsL⟩ := hsL
    rw [hsL] at hsv
    rw [hsv] at hwc
    obtain ⟨en, hen, hfs⟩ := writeCouplings_spec hwc hnd s1 s2 nac hmem
    refine ⟨sL, ens, en, symbols, positions, hsL, hsv, hens, hen, hsym, hgeo, ?_⟩
    rw [hfs]
    have hfsg : fsg (.nacvec s1 s2) = fs (.nacvec s1 s2) :=
      writeGradients_unchanged hwg (fun q _ hh => OutKey.noConfusion hh)
    rw [hfsg]
  · intro res rest fs ens symbols positions a b nv ps hsym hgeo hens hgrad hcoup
    rw [aggregate]
    have hone : aggregateOne res false fs none = .error .nameError := by
      unfold aggregateOne
      rw [hsym, hgeo, hgrad, hens]
      simp only [writeGradients, writeCouplings, hcoup, hens]
    simp only [aggregateFrom, hone]

/-- A result carrying both a gradient (state 0) and a coupling, for the
C10 witness. -/
def c10res3 : QCState :=
  { initQC with
    symbols := some ["H"],
    geometry := some [[1]],
    energies := some [(0, 3)],
    gradients := [(0, [[1]])],
    couplings := [((1, 2), [[7]])] }

/-- C10 (witness): both parts at concrete data — a single result with one
gradient (state 0, iterated last) and one coupling, whose record is written
with `energies[0]`; and a first-geometry result with a coupling but no
gradient, aborting the run with the unbound-variable error. -/
theorem claim_C10_witness :
    (∃ fs' sv' sL ens en symbols positions,
      aggregateOne c10res3 false (fun _ => []) none = .ok (fs', sv') ∧
      (c10res3.gradients.map Prod.fst).getLast? = some sL ∧
      sv' = some sL ∧
      c10res3.energies = some ens ∧ dlookup sL ens = some en ∧
      c10res3.symbols = some symbols ∧ c10res3.geometry = some positions ∧
      fs' (.nacvec 1 2) = [⟨symbols, positions, en, [[7]]⟩]) ∧
    aggregate (fun _ => []) [c10res2] = .error .nameError := by
  constructor
  · obtain ⟨fs', sv', h⟩ :
        ∃ fs' sv', aggregateOne c10res3 false (fun _ => []) none = .ok (fs', sv') :=
      ⟨_, _, rfl⟩
    obtain ⟨sL, ens, en, symbols, positions, h1, h2, h3, h4, h5, h6, h7⟩ :=
      claim_C10.1 c10res3 false (fun _ => []) none fs' sv' 1 2 [[7]] h
        (by decide) (by decide) (by decide)
    exact ⟨fs', sv', sL, ens, en, symbols, positions, h, h1, h2, h3, h4, h5, h6, h7⟩
  · exact claim_C10.2 c10res2 [] (fun _ => []) [(0, 5)] ["H"] [[2]] 1 2 [[7]] []
      rfl rfl rfl rfl rfl

end SGDML
